import Mathlib

/-!
Verification of cmd-executor: `a1jobs` (job controller) and `a1mon` (process-tree monitor).

A shallow embedding of the two programs of the repository.

* `src/a1mon.cpp`: the snapshot pass over the rows of the process listing
  (`snapshot`), the polling loop with its termination check (`reconcile`) and the
  cleanup loop (`cleanup`).
* `src/a1jobs.cpp`: the job table (`Job`), `get_job`, `terminate` and the command
  loop of `main` (`step`, `session`).

Modelling conventions.

* `std::stoi` is `stoi`: optional leading white space, an optional sign, then the
  longest run of decimal digits; no digit is `invalid_argument`, a value outside the
  range of `int` is `out_of_range`; trailing characters are ignored. Accordingly a
  field or argument is called numeric (`Numeric`, `LeadingInt`) when it starts with a
  decimal integer.
* A `std::vector<std::string>` is a `List String`; `std::map<pid_t, Process>` is a
  list of `Process` kept strictly ascending by `pid` (the key of every entry the
  program inserts is the `pid` of the value), so iteration order is that of `std::map`.
* A row of the listing is the list of its white-space separated fields; reading the
  pipe, cutting lines into buffers and splitting a buffer into fields are not modelled.
* The operating system is a parameter: the value returned by `fork` and the status
  written by `waitpid` are inputs, system calls and printed messages are `Event`s
  of an output trace. Printed lines are recorded by content, not by their text; the
  prompt of `a1jobs`, the timing report, and the header, row echo and process report
  of `a1mon` are not recorded.
* The CPU limit set at the start of both programs plays no part.
-/

/-! ## `std::stoi` -/

/-- The two exceptions `std::stoi` can throw. -/
inductive StoiError where
  | invalid_argument
  | out_of_range
  deriving DecidableEq, Repr

deriving instance DecidableEq for Except

/-- White space skipped by `strtol` (the C locale's `isspace`). -/
def isSpaceC (c : Char) : Bool :=
  c = ' ' ∨ c = '\t' ∨ c = '\n' ∨ c = Char.ofNat 11 ∨ c = Char.ofNat 12 ∨ c = '\r'

/-- Value of a run of decimal digits, most significant first. -/
def digitsValue (ds : List Char) : Nat :=
  ds.foldl (fun acc c => 10 * acc + (c.toNat - 48)) 0

/-- Digits and sign to an `int`, or `out_of_range`. -/
def stoiFinish (neg : Bool) (ds : List Char) : Except StoiError Int :=
  let digs := ds.takeWhile Char.isDigit
  if digs = [] then .error .invalid_argument
  else
    let v : Int := if neg then -(digitsValue digs : Int) else (digitsValue digs : Int)
    if v < -2147483648 ∨ 2147483647 < v then .error .out_of_range else .ok v

/-- Embedding of `std::stoi(const std::string&)` (base 10) on the characters of the string. -/
def stoiChars (cs : List Char) : Except StoiError Int :=
  match cs.dropWhile isSpaceC with
  | '-' :: rest => stoiFinish true rest
  | '+' :: rest => stoiFinish false rest
  | rest => stoiFinish false rest

/-- Embedding of `std::stoi`. -/
def stoi (s : String) : Except StoiError Int := stoiChars s.data

/-- The integer written by a sign and a run of decimal digits. -/
def intValue (neg : Bool) (ds : List Char) : Int :=
  if neg then -(digitsValue ds : Int) else (digitsValue ds : Int)

/-- The characters start with a decimal integer: white space, then an optional sign (`neg`
tells whether it is `-`), then the digits `ds`, at least one, then `rest`, which does not
start with a digit. -/
def LeadingInt (cs : List Char) (neg : Bool) (ds rest : List Char) : Prop :=
  ∃ ws sgn, cs = ws ++ (sgn ++ (ds ++ rest)) ∧ (∀ c ∈ ws, isSpaceC c = true) ∧
    ((sgn = [] ∧ neg = false) ∨ (sgn = ['+'] ∧ neg = false) ∨ (sgn = ['-'] ∧ neg = true)) ∧
    ds ≠ [] ∧ (∀ c ∈ ds, c.isDigit = true) ∧ (∀ c ∈ rest.head?, c.isDigit = false)

/-- A field is numeric when it starts with a decimal integer. -/
def Numeric (field : String) : Prop :=
  ∃ neg ds rest, LeadingInt field.data neg ds rest

/-- A field is numeric with value `v`, and `v` fits an `int`. -/
def IntField (field : String) (v : Int) : Prop :=
  ∃ neg ds rest, LeadingInt field.data neg ds rest ∧ v = intValue neg ds ∧
    -2147483648 ≤ v ∧ v ≤ 2147483647

/-- The signals the two programs send. -/
inductive Signal where
  | SIGKILL
  | SIGSTOP
  | SIGCONT
  deriving DecidableEq, Repr

/-! ## `a1mon`: process snapshot and reconciliation loop -/

namespace A1mon

/-- Embedding of `struct Process`. -/
structure Process where
  pid : Int
  ppid : Int
  cmd : String
  deriving DecidableEq, Repr

/-- The fields of one row: the white-space separated tokens read from one buffer
(`vector<string> cmd` built from the `istringstream`). -/
abbrev Row := List String

/-- The text written by `copy(next(cmd.begin(), 5), prev(cmd.end(), 2),
ostream_iterator<string>(cmd_oss, " "))`: the fields from index 5 (0-based) up to, and
excluding, the last two, each followed by one blank. The copy runs `last - first`
times when that is positive, so a row of fewer than 8 fields yields the empty text. -/
def cmdText (row : Row) : String :=
  String.join (((row.drop 5).take (row.length - 2 - 5)).map (fun s => s ++ " "))

/-- Embedding of the `try` block of the row loop: `cmd.at(1)` and `cmd.at(2)` throw
`out_of_range` on a short row, `stoi` throws on a field without leading integer; both
handlers `continue`, which is `none` here. -/
def parseRow (row : Row) : Option Process :=
  match row[1]?, row[2]? with
  | some f1, some f2 =>
    match stoi f1, stoi f2 with
    | .ok pid, .ok ppid => some { pid := pid, ppid := ppid, cmd := cmdText row }
    | _, _ => none
  | _, _ => none

/-- The `std::map<pid_t, Process>`: entries strictly ascending by `pid`. -/
abbrev ProcMap := List Process

/-- Embedding of `m.find(pid) != m.end()`. -/
def ProcMap.contains (m : ProcMap) (pid : Int) : Bool :=
  m.any (fun p => p.pid == pid)

/-- Embedding of `m.insert(make_pair(p.pid, p))`: the entry is placed at its position in key
order; when the key is already present the map is left as it is. -/
def ProcMap.insert : ProcMap → Process → ProcMap
  | [], p => [p]
  | q :: m, p =>
    if p.pid < q.pid then p :: q :: m
    else if p.pid = q.pid then q :: m
    else q :: ProcMap.insert m p

/-- The keys of the map in iteration order. -/
def ProcMap.pids (m : ProcMap) : List Int := m.map Process.pid

/-- The map invariant: keys strictly ascending. -/
def ProcMap.WF (m : ProcMap) : Prop := m.Pairwise (fun a b => a.pid < b.pid)

instance (m : ProcMap) : Decidable m.WF := by
  unfold ProcMap.WF; infer_instance

/-- Embedding of the admission test (lines 115-117): the process is inserted when it is
the target or its parent is already in the map. -/
def admitProc (target_pid : Int) (new_proc_map : ProcMap) (p : Process) : ProcMap :=
  if p.pid = target_pid ∨ new_proc_map.contains p.ppid = true then new_proc_map.insert p
  else new_proc_map

/-- One iteration of the row loop on `new_proc_map`: a row that does not parse is skipped,
a parsed row goes through the admission test. -/
def acceptRow (target_pid : Int) (new_proc_map : ProcMap) (row : Row) : ProcMap :=
  match parseRow row with
  | none => new_proc_map
  | some p => admitProc target_pid new_proc_map p

/-- The row loop continued from a given `new_proc_map`. -/
def snapshotFrom (target_pid : Int) (m : ProcMap) (rows : List Row) : ProcMap :=
  rows.foldl (acceptRow target_pid) m

/-- Embedding of the snapshot pass of one cycle (lines 74-120): `new_proc_map` starts empty
and the rows are visited in listing order. -/
def snapshot (target_pid : Int) (rows : List Row) : ProcMap :=
  snapshotFrom target_pid [] rows

/-- What the cleanup loop of `a1mon` does to the outside world. -/
inductive Event where
  /-- The line `terminating [ pid, cmd]`. -/
  | terminating (pid : Int) (cmd : String)
  /-- The call `kill(pid, sig)`. -/
  | kill (pid : Int) (sig : Signal)
  /-- The call `waitpid(pid, &status, 0)`. -/
  | waitpid (pid : Int)
  deriving DecidableEq, Repr

/-- Embedding of the termination check (line 136): the target was in the previous
generation and is not in the new one. -/
def targetGone (target_pid : Int) (proc_map new_proc_map : ProcMap) : Bool :=
  proc_map.contains target_pid && !new_proc_map.contains target_pid

/-- Embedding of the polling loop (lines 65-145) over the generations `new_proc_map` of the
successive cycles, from the current `proc_map`. `cycle` numbers the iteration about to run
(the program's own `counter` is never incremented). The result is the iteration at which
the loop breaks together with `proc_map` at that moment, or `none` when the loop is still
running after the given cycles. -/
def reconcileFrom (target_pid : Int) : ProcMap → Nat → List ProcMap → Option (Nat × ProcMap)
  | _, _, [] => none
  | proc_map, cycle, new_proc_map :: rest =>
    if targetGone target_pid proc_map new_proc_map then some (cycle, proc_map)
    else reconcileFrom target_pid new_proc_map (cycle + 1) rest

/-- The polling loop from the start of `main`: `proc_map` is empty, cycles count from 0. -/
def reconcile (target_pid : Int) (gens : List ProcMap) : Option (Nat × ProcMap) :=
  reconcileFrom target_pid [] 0 gens

/-- Embedding of the cleanup loop (lines 148-155): the entries of `proc_map` in key order,
the target skipped, every other one reported, killed and reaped. `pid` is the monitor's own
pid (`getpid()`). The loop does not skip it: when it meets its own entry it sends SIGKILL to
itself, which ends the process inside `kill`, so that no `waitpid` and no later entry
follows. -/
def cleanup (pid target_pid : Int) : ProcMap → List Event
  | [] => []
  | proc :: rest =>
    if proc.pid = target_pid then cleanup pid target_pid rest
    else if proc.pid = pid then [.terminating proc.pid proc.cmd, .kill proc.pid .SIGKILL]
    else
      .terminating proc.pid proc.cmd :: .kill proc.pid .SIGKILL :: .waitpid proc.pid ::
        cleanup pid target_pid rest

/-- The whole of `main` after argument parsing, for the monitor with pid `pid`, on the
listings the successive cycles read: the events of the cleanup when the loop has stopped. -/
def monitor (pid target_pid : Int) (listings : List (List Row)) : Option (List Event) :=
  (reconcile target_pid (listings.map (snapshot target_pid))).map
    (fun stop => cleanup pid target_pid stop.2)

/-- The generation held in `proc_map` when cycle `i` (from 0) starts: empty before the first
cycle, afterwards the generation of cycle `i - 1`. -/
def prevGen (gens : List ProcMap) (i : Nat) : ProcMap :=
  (([] : ProcMap) :: gens).getD i []

/-- The generation computed in cycle `i` (from 0). -/
def curGen (gens : List ProcMap) (i : Nat) : ProcMap :=
  gens.getD i []

/-- The system calls among the events. -/
def syscalls (evs : List Event) : List Event :=
  evs.filter (fun e => match e with | .terminating _ _ => false | _ => true)

/-- The parsed rows of a listing, in listing order. -/
def parsedRows (rows : List Row) : List Process := rows.filterMap parseRow

/-- Descendant closure of the target in a list of processes: the target, and the `pid` of
every process whose `ppid` is already in the closure. -/
inductive Descendant (target_pid : Int) (ps : List Process) : Int → Prop where
  | root : Descendant target_pid ps target_pid
  | child (p : Process) : p ∈ ps → Descendant target_pid ps p.ppid →
      Descendant target_pid ps p.pid

/-- Every process comes after its parent: no process is its own parent, and no process
stands before the process it names as parent. -/
def ParentsFirst (ps : List Process) : Prop :=
  (∀ p ∈ ps, p.ppid ≠ p.pid) ∧ ps.Pairwise (fun a b => a.ppid ≠ b.pid)

instance (ps : List Process) : Decidable (ParentsFirst ps) := by
  unfold ParentsFirst; infer_instance

/-- A field is non-numeric when `stoi` finds no integer at its start. -/
def nonNumeric (field : String) : Bool :=
  stoi field = .error .invalid_argument

/-- A malformed row: too short to have the pid and parent-pid fields, or one of the two
is non-numeric. -/
def malformed (row : Row) : Bool :=
  match row[1]?, row[2]? with
  | some f1, some f2 => nonNumeric f1 || nonNumeric f2
  | _, _ => true

/-- The listing of the specification's snapshot example, as rows of eight fields: pids 1
(the target), 2 (child of 1), 3 (child of 2) and 4 (child of 99). -/
def specListing : List Row :=
  [["u", "1", "0", "S", "t", "target", "a", "b"],
   ["u", "2", "1", "S", "t", "child", "a", "b"],
   ["u", "3", "2", "S", "t", "grandchild", "a", "b"],
   ["u", "4", "99", "S", "t", "unrelated", "a", "b"]]

/-- The generation with pids 1 and 2 of the specification's reconciler example. -/
def specGen12 : ProcMap := [⟨1, 0, "target "⟩, ⟨2, 1, "child "⟩]

/-- The generation sequence of the specification's reconciler example: pids 1 and 2, again
1 and 2, then 2 alone. -/
def specGens : List ProcMap := [specGen12, specGen12, [⟨2, 1, "child "⟩]]

/-- A listing in which the monitor itself (pid 200) is a child of the target (pid 100), next
to another child (pid 300). -/
def selfListing : List Row :=
  [["u", "100", "1", "S", "t", "a1jobs", "a", "b"],
   ["u", "200", "100", "S", "t", "a1mon", "100", "a", "b"],
   ["u", "300", "100", "S", "t", "xclock", "a", "b"]]

/-- The listing of the next cycle: the target has exited, its two children are still
there. -/
def selfListingAfter : List Row :=
  [["u", "200", "1", "S", "t", "a1mon", "100", "a", "b"],
   ["u", "300", "1", "S", "t", "xclock", "a", "b"]]

/-- The malformed row of the specification's example: pid field `abc`, parent field `def`,
command `x`. -/
def specMalformedRow : Row := ["u", "abc", "def", "S", "t", "x", "a", "b"]

/-- The listing of the specification's order-sensitivity example: the row of the child
(pid 2, parent 1) stands before the row of the target (pid 1). -/
def specReordered : List Row :=
  [["u", "2", "1", "S", "t", "child", "a", "b"],
   ["u", "1", "0", "S", "t", "target", "a", "b"]]

/-- A listing with two rows for pid 2 after the row of the target 1. -/
def specDuplicate : List Row :=
  [["u", "1", "0", "S", "t", "target", "a", "b"],
   ["u", "2", "1", "S", "t", "first", "a", "b"],
   ["u", "2", "1", "S", "t", "second", "a", "b"]]

/-- A row whose pid field is a number too large for an `int`. -/
def specHugePidRow : Row := ["u", "99999999999", "1", "S", "t", "x", "a", "b"]

end A1mon

/-! ## `a1jobs`: job table and command loop -/

namespace A1jobs

/-- The constant `MAX_JOBS`. -/
def MAX_JOBS : Nat := 32

/-- Embedding of `struct Job`. -/
structure Job where
  index : Int
  hproc : Int
  cmd : List String
  terminated : Bool
  deriving DecidableEq, Repr

/-- The lines the program prints, by content. -/
inductive Msg where
  /-- One line of `list`: `index: (pid = hproc, cmd = cmd_str)`. -/
  | listEntry (index hproc : Int) (cmd_str : String)
  /-- The text `fork error`. -/
  | forkError
  /-- The text `error: could not admitProc job -- the maximum 32 jobs are already registered!`. -/
  | admissionError
  /-- The text `usage: name <jobno>`. -/
  | usage (name : String)
  /-- The text `suspended pid`. -/
  | suspended (pid : Int)
  /-- The text `resumed pid`. -/
  | resumed (pid : Int)
  /-- The text `terminated pid`. -/
  | terminated (pid : Int)
  /-- The text `Invalid command 'tok'`. -/
  | invalidCommand (tok : String)
  /-- The text `error: invalid job number arg`. -/
  | invalidJobNumber (arg : String)
  /-- The text `error: job jobno does not exist`; `none` when `jobno` was never assigned. -/
  | jobDoesNotExist (jobno : Option Int)
  /-- The text `error: no command entered`. -/
  | noCommand
  /-- The text `Too many arguments -- only 4 arguments allowed.`. -/
  | tooManyArguments
  deriving DecidableEq, Repr

/-- What the program does to the outside world. -/
inductive Event where
  /-- The call `fork()` and the value it returned. -/
  | fork (pid : Int)
  /-- The call `kill(pid, sig)`. -/
  | kill (pid : Int) (sig : Signal)
  /-- The call `waitpid(pid, &status, 0)`. -/
  | waitpid (pid : Int)
  /-- The call `execlp(file, argv...)`, `argv` without the closing null pointer. -/
  | execlp (file : String) (argv : List String)
  /-- A printed line. -/
  | out (m : Msg)
  deriving DecidableEq, Repr

/-- Embedding of `get_job`: the position in `jobs` the returned pointer refers to, or `none`
for `nullptr`, and what was printed. `jobs.at(jobno)` converts `jobno` to `size_t`
(modulo `2^64`) and throws `out_of_range` when that is not below `jobs.size()`. When
`stoi` itself throws `out_of_range`, `jobno` has no value yet. -/
def get_job (jobs : List Job) (str_jobno : String) : Option Nat × List Event :=
  match stoi str_jobno with
  | .ok jobno =>
    if (jobno % 18446744073709551616).toNat < jobs.length then
      (some (jobno % 18446744073709551616).toNat, [])
    else (none, [.out (.jobDoesNotExist (some jobno))])
  | .error .invalid_argument => (none, [.out (.invalidJobNumber str_jobno)])
  | .error .out_of_range => (none, [.out (.jobDoesNotExist none)])

/-- Embedding of `terminate`: the job afterwards, the returned `status` and the events;
`wstatus` is what `waitpid` leaves in `status`. -/
def terminate (wstatus : Int) (job : Job) : Job × Int × List Event :=
  if !job.terminated then
    ({ job with terminated := true }, wstatus,
      [.kill job.hproc .SIGKILL, .out (.terminated job.hproc), .waitpid job.hproc])
  else (job, 0, [])

/-- Embedding of `run_cmd` (a reserved word in Lean, hence the spelling), executed by the
child: the program with up to 4 arguments is handed to `execlp`, otherwise a message is
printed. -/
def runCmd (cmd : List String) : List Event :=
  match cmd with
  | [] => [.out .noCommand]
  | [c0] => [.execlp c0 [c0]]
  | [c0, c1] => [.execlp c0 [c0, c1]]
  | [c0, c1, c2] => [.execlp c0 [c0, c1, c2]]
  | [c0, c1, c2, c3] => [.execlp c0 [c0, c1, c2, c3]]
  | [c0, c1, c2, c3, c4] => [.execlp c0 [c0, c1, c2, c3, c4]]
  | _ => [.out .tooManyArguments]

/-- The string `cmd_str` of the `list` branch: every word followed by one blank. -/
def cmdStr (cmd : List String) : String :=
  String.join (cmd.map (fun w => w ++ " "))

/-- Embedding of the `list` branch (lines 65-75). -/
def listJobs (jobs : List Job) : List Event :=
  jobs.flatMap (fun j =>
    if !j.terminated then [.out (.listEntry j.index j.hproc (cmdStr j.cmd))] else [])

/-- Embedding of the loop of the `exit` branch (lines 138-140): `terminate` on every job
in table order. -/
def terminateAll (wait_status : Int → Int) : List Job → List Job × List Event
  | [] => ([], [])
  | job :: rest =>
    let r := terminate (wait_status job.hproc) job
    let rs := terminateAll wait_status rest
    (r.1 :: rs.1, r.2.2 ++ rs.2)

/-- One line of input with the answers of the operating system while it is processed:
the words of the line, the value `fork` returns and the status `waitpid` writes for a pid. -/
structure Input where
  cmd : List String
  fork_result : Int
  wait_status : Int → Int

/-- The table after one iteration of the command loop, the events of the iteration, and
whether the loop goes on (`false` after `break` or `exit(0)`). -/
structure StepResult where
  jobs : List Job
  events : List Event
  running : Bool

/-- Embedding of the branches for `suspend` and `resume` (lines 104-125) after the word
count check: the signal goes to the head process of the job `get_job` returns. -/
def signalJob (jobs : List Job) (str_jobno : String) (sig : Signal) (done : Int → Msg) :
    List Event :=
  match get_job jobs str_jobno with
  | (some pos, evs) =>
    match jobs[pos]? with
    | some job => evs ++ [.kill job.hproc sig, .out (done job.hproc)]
    | none => evs
  | (none, evs) => evs

/-- Embedding of the `terminate` branch (lines 126-135) after the word count check. -/
def terminateJob (jobs : List Job) (str_jobno : String) (wait_status : Int → Int) :
    List Job × List Event :=
  match get_job jobs str_jobno with
  | (some pos, evs) =>
    match jobs[pos]? with
    | some job =>
      let r := terminate (wait_status job.hproc) job
      (jobs.set pos r.1, evs ++ r.2.2)
    | none => (jobs, evs)
  | (none, evs) => (jobs, evs)

/-- Embedding of the `run` branch (lines 76-103), `cmd` already without the word `run`. -/
def runJob (jobs : List Job) (cmd : List String) (pid : Int) : StepResult :=
  if jobs.length < MAX_JOBS then
    if pid < 0 then
      { jobs := jobs, events := [.fork pid, .out .forkError], running := true }
    else if pid > 0 then
      { jobs := jobs ++ [{ index := (jobs.length : Int), hproc := pid, cmd := cmd,
                           terminated := false }],
        events := [.fork pid], running := true }
    else
      { jobs := jobs, events := .fork pid :: runCmd cmd, running := false }
  else
    { jobs := jobs, events := [.out .admissionError], running := true }

/-- Embedding of one iteration of the command loop of `main` (lines 50-147). The prompt
is not recorded. -/
def step (jobs : List Job) (inp : Input) : StepResult :=
  match inp.cmd with
  | [] => { jobs := jobs, events := [], running := true }
  | c0 :: args =>
    if c0 = "list" then
      { jobs := jobs, events := listJobs jobs, running := true }
    else if c0 = "run" then
      runJob jobs args inp.fork_result
    else if c0 = "suspend" then
      match args with
      | [a] => { jobs := jobs, events := signalJob jobs a .SIGSTOP .suspended, running := true }
      | _ => { jobs := jobs, events := [.out (.usage "resume")], running := true }
    else if c0 = "resume" then
      match args with
      | [a] => { jobs := jobs, events := signalJob jobs a .SIGCONT .resumed, running := true }
      | _ => { jobs := jobs, events := [.out (.usage "resume")], running := true }
    else if c0 = "terminate" then
      match args with
      | [a] =>
        let r := terminateJob jobs a inp.wait_status
        { jobs := r.1, events := r.2, running := true }
      | _ => { jobs := jobs, events := [.out (.usage "terminate")], running := true }
    else if c0 = "exit" then
      let r := terminateAll inp.wait_status jobs
      { jobs := r.1, events := r.2, running := false }
    else if c0 = "quit" then
      { jobs := jobs, events := [], running := false }
    else
      { jobs := jobs, events := [.out (.invalidCommand c0)], running := true }

/-- The state of a session: the table, everything done so far, and whether the command
loop is still running. -/
structure Session where
  jobs : List Job
  trace : List Event
  running : Bool

/-- The state at the start of `main`. -/
def Session.init : Session := { jobs := [], trace := [], running := true }

/-- The command loop on a sequence of input lines; lines after the loop has ended are
not read. -/
def session (s : Session) : List Input → Session
  | [] => s
  | inp :: rest =>
    if s.running then
      let r := step s.jobs inp
      session { jobs := r.jobs, trace := s.trace ++ r.events, running := r.running } rest
    else s

/-- The head processes of the jobs registered by the parent: the positive values returned
by `fork`, in order. -/
def admitted (evs : List Event) : List Int :=
  evs.filterMap (fun e => match e with
    | .fork pid => if 0 < pid then some pid else none
    | _ => none)

/-- The table positions of the jobs on which one iteration of the command loop calls
`terminate`: the job found by `get_job` in the `terminate` branch, every job in the `exit`
branch, none in the other branches. -/
def terminateTargets (jobs : List Job) (inp : Input) : List Nat :=
  match inp.cmd with
  | [] => []
  | c0 :: args =>
    if c0 = "terminate" then
      match args with
      | [a] =>
        match get_job jobs a with
        | (some pos, _) => [pos]
        | (none, _) => []
      | _ => []
    else if c0 = "exit" then List.range jobs.length
    else []

/-- Whether `terminate` is called on the job at table position `k` at least once while the
command loop, in state `s`, processes the given lines. -/
def terminateCalled (s : Session) : List Input → Nat → Bool
  | [], _ => false
  | inp :: rest, k =>
    s.running &&
      (decide (k ∈ terminateTargets s.jobs inp) ||
        terminateCalled
          { jobs := (step s.jobs inp).jobs, trace := s.trace ++ (step s.jobs inp).events,
            running := (step s.jobs inp).running } rest k)

/-- A sample session: two jobs are started, job 0 is terminated twice with a `list` in
between, then `exit`. -/
def sampleSession : List Input :=
  [⟨["run", "sleep", "100"], 101, fun _ => 9⟩,
   ⟨["run", "xclock"], 102, fun _ => 9⟩,
   ⟨["terminate", "0"], 0, fun _ => 9⟩,
   ⟨["list"], 0, fun _ => 9⟩,
   ⟨["terminate", "0"], 0, fun _ => 9⟩,
   ⟨["exit"], 0, fun _ => 9⟩]

/-- A sample table: job 0 terminated, job 1 not. -/
def sampleTable : List Job := [⟨0, 101, ["sleep", "100"], true⟩, ⟨1, 102, ["xclock"], false⟩]

/-- A session of 33 `run` commands, every `fork` succeeding. -/
def fullSession : List Input :=
  List.replicate 33 ⟨["run", "sleep", "1"], 7, fun _ => 0⟩

/-- An entry of the table at two moments: handle, head process and command are the same and
a set `terminated` flag is still set. -/
def Job.evolves (j j' : Job) : Prop :=
  j'.index = j.index ∧ j'.hproc = j.hproc ∧ j'.cmd = j.cmd ∧
    (j.terminated = true → j'.terminated = true)

/-- The pids passed to `waitpid`, in order. -/
def reaps (evs : List Event) : List Int :=
  evs.filterMap (fun e => match e with | .waitpid pid => some pid | _ => none)

/-- The pids sent a given signal, in order. -/
def signalled (sig : Signal) (evs : List Event) : List Int :=
  evs.filterMap (fun e => match e with
    | .kill pid s => if s = sig then some pid else none
    | _ => none)

end A1jobs

/-! ## Theorems -/

/-! ### `stoi` and leading integers -/

theorem digit_not_space (c : Char) (h : c.isDigit = true) : isSpaceC c = false := by
  cases hs : isSpaceC c with
  | false => rfl
  | true =>
    exfalso
    unfold isSpaceC at hs
    simp only [decide_eq_true_eq] at hs
    rcases hs with rfl | rfl | rfl | rfl | rfl | rfl <;> revert h <;> decide

theorem takeWhile_digits (ds rest : List Char) (hds : ∀ c ∈ ds, c.isDigit = true)
    (hrest : ∀ c ∈ rest.head?, c.isDigit = false) :
    (ds ++ rest).takeWhile Char.isDigit = ds := by
  rw [List.takeWhile_append_of_pos hds]
  cases rest with
  | nil => simp
  | cons r rest =>
    have hr : r.isDigit = false := hrest r (by simp)
    simp [List.takeWhile_cons, hr]

theorem stoiFinish_digits (neg : Bool) (ds rest : List Char) (hne : ds ≠ [])
    (hds : ∀ c ∈ ds, c.isDigit = true) (hrest : ∀ c ∈ rest.head?, c.isDigit = false) :
    stoiFinish neg (ds ++ rest) =
      if intValue neg ds < -2147483648 ∨ 2147483647 < intValue neg ds then
        .error .out_of_range
      else .ok (intValue neg ds) := by
  unfold stoiFinish
  simp only [takeWhile_digits ds rest hds hrest, hne, if_false, intValue]

theorem stoiChars_minus (cs r : List Char) (h : cs.dropWhile isSpaceC = '-' :: r) :
    stoiChars cs = stoiFinish true r := by
  unfold stoiChars
  split
  · next r2 h2 =>
    rw [h] at h2
    injection h2 with _ h3
    rw [h3]
  · next r2 h2 =>
    rw [h] at h2
    injection h2 with h3 _
    exact absurd h3 (by decide)
  · next hm _ => exact absurd h (hm r)

theorem stoiChars_plus (cs r : List Char) (h : cs.dropWhile isSpaceC = '+' :: r) :
    stoiChars cs = stoiFinish false r := by
  unfold stoiChars
  split
  · next r2 h2 =>
    rw [h] at h2
    injection h2 with h3 _
    exact absurd h3 (by decide)
  · next r2 h2 =>
    rw [h] at h2
    injection h2 with _ h3
    rw [h3]
  · next _ hp => exact absurd h (hp r)

theorem stoiChars_unsigned (cs : List Char)
    (hm : ∀ r, cs.dropWhile isSpaceC ≠ '-' :: r) (hp : ∀ r, cs.dropWhile isSpaceC ≠ '+' :: r) :
    stoiChars cs = stoiFinish false (cs.dropWhile isSpaceC) := by
  unfold stoiChars
  split
  · next r h => exact absurd h (hm r)
  · next r h => exact absurd h (hp r)
  · rfl

/-- What `stoi` returns on a string that starts with a decimal integer: its value, or
`out_of_range` when the value does not fit an `int`. -/
theorem stoiChars_leadingInt (cs : List Char) (neg : Bool) (ds rest : List Char)
    (h : LeadingInt cs neg ds rest) :
    stoiChars cs =
      if intValue neg ds < -2147483648 ∨ 2147483647 < intValue neg ds then
        .error .out_of_range
      else .ok (intValue neg ds) := by
  obtain ⟨ws, sgn, hcs, hws, hsgn, hne, hds, hrest⟩ := h
  obtain ⟨d, ds', hd⟩ := List.exists_cons_of_ne_nil hne
  have hdd : d.isDigit = true := hds d (by rw [hd]; simp)
  rcases hsgn with ⟨rfl, rfl⟩ | ⟨rfl, rfl⟩ | ⟨rfl, rfl⟩
  · have hdw : cs.dropWhile isSpaceC = ds ++ rest := by
      rw [hcs, List.dropWhile_append_of_pos hws, List.nil_append, hd, List.cons_append,
        List.dropWhile_cons_of_neg (by simp [digit_not_space d hdd])]
    rw [stoiChars_unsigned cs, hdw, stoiFinish_digits false ds rest hne hds hrest]
    · intro r hr
      rw [hdw, hd, List.cons_append] at hr
      injection hr with h1 _
      rw [h1] at hdd
      revert hdd
      decide
    · intro r hr
      rw [hdw, hd, List.cons_append] at hr
      injection hr with h1 _
      rw [h1] at hdd
      revert hdd
      decide
  · have hdw : cs.dropWhile isSpaceC = '+' :: (ds ++ rest) := by
      rw [hcs, List.dropWhile_append_of_pos hws]
      exact List.dropWhile_cons_of_neg (by decide)
    rw [stoiChars_plus cs _ hdw, stoiFinish_digits false ds rest hne hds hrest]
  · have hdw : cs.dropWhile isSpaceC = '-' :: (ds ++ rest) := by
      rw [hcs, List.dropWhile_append_of_pos hws]
      exact List.dropWhile_cons_of_neg (by decide)
    rw [stoiChars_minus cs _ hdw, stoiFinish_digits true ds rest hne hds hrest]


theorem stoiFinish_no_digit (neg : Bool) (r : List Char)
    (h : r.takeWhile Char.isDigit = []) : stoiFinish neg r = .error .invalid_argument := by
  unfold stoiFinish
  simp only [h, if_true]

theorem leadingInt_of_dropWhile (cs sgn r : List Char) (neg : Bool)
    (hdw : cs.dropWhile isSpaceC = sgn ++ r)
    (hsgn : (sgn = [] ∧ neg = false) ∨ (sgn = ['+'] ∧ neg = false) ∨
      (sgn = ['-'] ∧ neg = true))
    (hne : r.takeWhile Char.isDigit ≠ []) :
    LeadingInt cs neg (r.takeWhile Char.isDigit) (r.dropWhile Char.isDigit) := by
  refine ⟨cs.takeWhile isSpaceC, sgn, ?_, ?_, hsgn, hne, ?_, ?_⟩
  · rw [List.takeWhile_append_dropWhile, ← hdw, List.takeWhile_append_dropWhile]
  · intro c hc
    exact List.mem_takeWhile_imp hc
  · intro c hc
    exact List.mem_takeWhile_imp hc
  · intro c hc
    have h := List.head?_dropWhile_not Char.isDigit r
    rw [Option.mem_def] at hc
    rw [hc] at h
    exact h

/-- The characters on which `stoi` throws `invalid_argument` are those that do not start with
a decimal integer. -/
theorem stoiChars_invalid_iff (cs : List Char) :
    stoiChars cs = .error .invalid_argument ↔ ¬ ∃ neg ds rest, LeadingInt cs neg ds rest := by
  constructor
  · rintro h ⟨neg, ds, rest, hl⟩
    rw [stoiChars_leadingInt cs neg ds rest hl] at h
    split at h <;> simp at h
  · intro hno
    cases hl : cs.dropWhile isSpaceC with
    | nil =>
      rw [stoiChars_unsigned cs (by simp [hl]) (by simp [hl]), hl]
      exact stoiFinish_no_digit false [] rfl
    | cons c r =>
      by_cases hm : c = '-'
      · subst hm
        rw [stoiChars_minus cs r hl]
        by_cases hd : r.takeWhile Char.isDigit = []
        · exact stoiFinish_no_digit true r hd
        · exact absurd ⟨true, _, _, leadingInt_of_dropWhile cs ['-'] r true hl
            (Or.inr (Or.inr ⟨rfl, rfl⟩)) hd⟩ hno
      · by_cases hp : c = '+'
        · subst hp
          rw [stoiChars_plus cs r hl]
          by_cases hd : r.takeWhile Char.isDigit = []
          · exact stoiFinish_no_digit false r hd
          · exact absurd ⟨false, _, _, leadingInt_of_dropWhile cs ['+'] r false hl
              (Or.inr (Or.inl ⟨rfl, rfl⟩)) hd⟩ hno
        · rw [stoiChars_unsigned cs
            (by intro r2 h2; rw [hl] at h2; injection h2 with h3 _; exact hm h3)
            (by intro r2 h2; rw [hl] at h2; injection h2 with h3 _; exact hp h3), hl]
          by_cases hd : (c :: r).takeWhile Char.isDigit = []
          · exact stoiFinish_no_digit false _ hd
          · exact absurd ⟨false, _, _, leadingInt_of_dropWhile cs [] (c :: r) false
              (by rw [hl]; rfl) (Or.inl ⟨rfl, rfl⟩) hd⟩ hno

theorem stoi_ok_iff (field : String) (v : Int) : stoi field = .ok v ↔ IntField field v := by
  unfold stoi IntField
  constructor
  · intro h
    have hnum : ∃ neg ds rest, LeadingInt field.data neg ds rest := by
      by_contra hno
      rw [(stoiChars_invalid_iff field.data).mpr hno] at h
      simp at h
    obtain ⟨neg, ds, rest, hl⟩ := hnum
    rw [stoiChars_leadingInt field.data neg ds rest hl] at h
    split_ifs at h with hr
    injection h with h
    exact ⟨neg, ds, rest, hl, h.symm, by omega, by omega⟩
  · rintro ⟨neg, ds, rest, hl, hv, hlo, hhi⟩
    rw [stoiChars_leadingInt field.data neg ds rest hl, if_neg (by omega), hv]

theorem stoi_invalid_iff (field : String) :
    stoi field = .error .invalid_argument ↔ ¬ Numeric field :=
  stoiChars_invalid_iff field.data

namespace A1mon

/-! ### The map -/

theorem ProcMap.contains_iff (m : ProcMap) (x : Int) :
    m.contains x = true ↔ x ∈ m.pids := by
  unfold ProcMap.contains ProcMap.pids
  rw [List.any_eq_true, List.mem_map]
  constructor
  · rintro ⟨p, hp, hx⟩
    exact ⟨p, hp, by simpa using hx⟩
  · rintro ⟨p, hp, hx⟩
    exact ⟨p, hp, by simpa using hx⟩

theorem ProcMap.mem_pids_insert (m : ProcMap) (p : Process) (x : Int) :
    x ∈ (m.insert p).pids ↔ x = p.pid ∨ x ∈ m.pids := by
  induction m with
  | nil => simp [ProcMap.insert, ProcMap.pids]
  | cons q m ih =>
    unfold ProcMap.insert
    by_cases h1 : p.pid < q.pid
    · simp [h1, ProcMap.pids]
    · by_cases h2 : p.pid = q.pid
      · rw [if_neg h1, if_pos h2]
        simp only [ProcMap.pids, List.map_cons, List.mem_cons, h2]
        tauto
      · rw [if_neg h1, if_neg h2]
        have ih' : x ∈ List.map Process.pid (ProcMap.insert m p) ↔
            x = p.pid ∨ x ∈ List.map Process.pid m := ih
        simp only [ProcMap.pids, List.map_cons, List.mem_cons, ih']
        tauto

theorem ProcMap.insert_WF (m : ProcMap) (p : Process) (h : m.WF) : (m.insert p).WF := by
  induction m with
  | nil => simp [ProcMap.insert, ProcMap.WF]
  | cons q m ih =>
    unfold ProcMap.WF at h ⊢
    rw [List.pairwise_cons] at h
    unfold ProcMap.insert
    by_cases h1 : p.pid < q.pid
    · rw [if_pos h1]
      refine List.Pairwise.cons ?_ (List.Pairwise.cons h.1 h.2)
      intro a ha
      rcases List.mem_cons.mp ha with rfl | ha
      · exact h1
      · exact lt_trans h1 (h.1 a ha)
    · by_cases h2 : p.pid = q.pid
      · rw [if_neg h1, if_pos h2]
        exact List.Pairwise.cons h.1 h.2
      · rw [if_neg h1, if_neg h2]
        refine List.Pairwise.cons ?_ (ih h.2)
        intro a ha
        have hx : a.pid ∈ (ProcMap.insert m p).pids := List.mem_map_of_mem _ ha
        rcases (ProcMap.mem_pids_insert m p a.pid).mp hx with hx | hx
        · rw [hx]; omega
        · obtain ⟨b, hb, hba⟩ := List.mem_map.mp hx
          rw [← hba]; exact h.1 b hb

theorem mem_pids_admitProc (t : Int) (m : ProcMap) (p : Process) (x : Int) :
    x ∈ (admitProc t m p).pids ↔ x ∈ m.pids ∨ (x = p.pid ∧ (p.pid = t ∨ p.ppid ∈ m.pids)) := by
  unfold admitProc
  by_cases h : p.pid = t ∨ m.contains p.ppid = true
  · rw [if_pos h, ProcMap.mem_pids_insert]
    rw [ProcMap.contains_iff] at h
    tauto
  · rw [if_neg h]
    rw [ProcMap.contains_iff] at h
    tauto

theorem admitProc_WF (t : Int) (m : ProcMap) (p : Process) (h : m.WF) : (admitProc t m p).WF := by
  unfold admitProc
  split
  · exact ProcMap.insert_WF m p h
  · exact h

theorem snapshotFrom_eq_foldl (t : Int) (rows : List Row) (m : ProcMap) :
    snapshotFrom t m rows = (parsedRows rows).foldl (admitProc t) m := by
  induction rows generalizing m with
  | nil => rfl
  | cons r rows ih =>
    simp only [snapshotFrom, List.foldl_cons] at ih ⊢
    rw [ih]
    unfold acceptRow parsedRows
    cases hr : parseRow r <;> simp [List.filterMap_cons, hr]

theorem foldl_admitProc_WF (t : Int) (ps : List Process) (m : ProcMap) (h : m.WF) :
    (ps.foldl (admitProc t) m).WF := by
  induction ps generalizing m with
  | nil => exact h
  | cons p ps ih => exact ih _ (admitProc_WF t m p h)

theorem snapshot_WF (t : Int) (rows : List Row) : (snapshot t rows).WF := by
  unfold snapshot
  rw [snapshotFrom_eq_foldl]
  exact foldl_admitProc_WF t _ [] List.Pairwise.nil

/-! ### The descendant closure -/

theorem Descendant.inv {t : Int} {ps : List Process} {x : Int} (h : Descendant t ps x) :
    x = t ∨ ∃ q ∈ ps, q.pid = x ∧ Descendant t ps q.ppid := by
  cases h with
  | root => exact Or.inl rfl
  | child q hq hd => exact Or.inr ⟨q, hq, rfl, hd⟩

theorem parent_before {ps done todo : List Process} {p q : Process}
    (hps : ps = done ++ p :: todo) (hord : ParentsFirst ps) (hq : q ∈ ps)
    (hpid : q.pid = p.ppid) : q ∈ done := by
  subst hps
  rcases List.mem_append.mp hq with h | h
  · exact h
  · exfalso
    rcases List.mem_cons.mp h with h | h
    · subst h
      exact hord.1 q (by simp) hpid.symm
    · have hpw := (List.pairwise_append.mp hord.2).2.1
      exact (List.pairwise_cons.mp hpw).1 q h hpid.symm

theorem eq_of_pid_eq {ps : List Process} (hnd : (ps.map Process.pid).Nodup)
    {p q : Process} (hp : p ∈ ps) (hq : q ∈ ps) (h : q.pid = p.pid) : q = p :=
  List.inj_on_of_nodup_map hnd hq hp h

theorem foldl_admitProc_closure (t : Int) (ps : List Process)
    (hnd : (ps.map Process.pid).Nodup) (ht : ∃ p ∈ ps, p.pid = t) (hord : ParentsFirst ps) :
    ∀ (todo done : List Process) (m : ProcMap), ps = done ++ todo →
      (∀ x, x ∈ m.pids ↔ x ∈ done.map Process.pid ∧ Descendant t ps x) →
      ∀ x, x ∈ (todo.foldl (admitProc t) m).pids ↔
        x ∈ ps.map Process.pid ∧ Descendant t ps x := by
  intro todo
  induction todo with
  | nil =>
    intro done m hps hI x
    rw [List.append_nil] at hps
    subst hps
    exact hI x
  | cons p todo ih =>
    intro done m hps hI
    have hp : p ∈ ps := by rw [hps]; simp
    refine ih (done ++ [p]) (admitProc t m p) (by rw [hps]; simp) ?_
    intro x
    rw [mem_pids_admitProc, List.map_append, List.mem_append]
    constructor
    · rintro (hx | ⟨rfl, hadm⟩)
      · exact ⟨Or.inl ((hI x).mp hx).1, ((hI x).mp hx).2⟩
      · refine ⟨Or.inr (by simp), ?_⟩
        rcases hadm with hroot | hpar
        · rw [hroot]; exact Descendant.root
        · exact Descendant.child p hp ((hI p.ppid).mp hpar).2
    · rintro ⟨hx | hx, hd⟩
      · exact Or.inl ((hI x).mpr ⟨hx, hd⟩)
      · have hxp : x = p.pid := by simpa using hx
        subst hxp
        refine Or.inr ⟨rfl, ?_⟩
        rcases hd.inv with hroot | ⟨q, hq, hqp, hdq⟩
        · exact Or.inl hroot
        · have hqeq : q = p := eq_of_pid_eq hnd hp hq hqp
          subst hqeq
          refine Or.inr ((hI q.ppid).mpr ⟨?_, hdq⟩)
          rcases hdq.inv with hroot | ⟨r, hr, hrp, _⟩
          · obtain ⟨r, hr, hrt⟩ := ht
            exact List.mem_map.mpr
              ⟨r, parent_before hps hord hr (hrt.trans hroot.symm), hrt.trans hroot.symm⟩
          · exact List.mem_map.mpr ⟨r, parent_before hps hord hr hrp, hrp⟩

/-- C1: on a listing of well-formed rows with pairwise distinct pids that has a row for the
target and in which every row comes after the row of its parent, the pids of the generation
computed by the snapshot pass are exactly the descendant closure of the target: the target
and every pid reachable from it through parent-to-child edges of the listing. -/
theorem snapshot_descendant_closure (target_pid : Int) (rows : List Row)
    (_hwell : ∀ r ∈ rows, (parseRow r).isSome = true)
    (hdistinct : ((parsedRows rows).map Process.pid).Nodup)
    (htarget : ∃ p ∈ parsedRows rows, p.pid = target_pid)
    (hord : ParentsFirst (parsedRows rows)) :
    ∀ x, x ∈ (snapshot target_pid rows).pids ↔ Descendant target_pid (parsedRows rows) x := by
  intro x
  unfold snapshot
  rw [snapshotFrom_eq_foldl,
    foldl_admitProc_closure target_pid (parsedRows rows) hdistinct htarget hord
      (parsedRows rows) [] [] rfl (by intro y; simp [ProcMap.pids]) x]
  constructor
  · exact fun h => h.2
  · intro hd
    refine ⟨?_, hd⟩
    rcases hd.inv with hroot | ⟨q, hq, hqp, _⟩
    · obtain ⟨r, hr, hrt⟩ := htarget
      exact List.mem_map.mpr ⟨r, hr, hrt.trans hroot.symm⟩
    · exact List.mem_map.mpr ⟨q, hq, hqp⟩

/-- C1 on the listing of the specification: the hypotheses hold there, the generation has
exactly the pids 1, 2, 3, and these are the descendant closure of 1. -/
theorem snapshot_descendant_closure_witness :
    (∀ r ∈ specListing, (parseRow r).isSome = true) ∧
    ((parsedRows specListing).map Process.pid).Nodup ∧
    (∃ p ∈ parsedRows specListing, p.pid = 1) ∧
    ParentsFirst (parsedRows specListing) ∧
    (snapshot 1 specListing).pids = [1, 2, 3] ∧
    ∀ x, x ∈ (snapshot 1 specListing).pids ↔ Descendant 1 (parsedRows specListing) x :=
  ⟨by decide, by decide, by decide, by decide, by decide,
   snapshot_descendant_closure 1 specListing (by decide) (by decide) (by decide) (by decide)⟩

/-! ### The polling loop -/

theorem targetGone_iff (t : Int) (a b : ProcMap) :
    targetGone t a b = true ↔ t ∈ a.pids ∧ t ∉ b.pids := by
  unfold targetGone
  rw [Bool.and_eq_true, Bool.not_eq_true', ← Bool.not_eq_true, ProcMap.contains_iff,
    ProcMap.contains_iff]

theorem reconcileFrom_iff (t : Int) (gens : List ProcMap) :
    ∀ (prev : ProcMap) (c i : Nat) (pm : ProcMap),
      reconcileFrom t prev c gens = some (i, pm) ↔
        ∃ k, i = c + k ∧ k < gens.length ∧
          (t ∈ ((prev :: gens).getD k []).pids ∧ t ∉ (gens.getD k []).pids) ∧
          (∀ j, j < k → ¬ (t ∈ ((prev :: gens).getD j []).pids ∧ t ∉ (gens.getD j []).pids)) ∧
          pm = (prev :: gens).getD k [] := by
  induction gens with
  | nil =>
    intro prev c i pm
    simp [reconcileFrom]
  | cons g rest ih =>
    intro prev c i pm
    unfold reconcileFrom
    by_cases hT : targetGone t prev g = true
    · rw [if_pos hT]
      have hG := (targetGone_iff t prev g).mp hT
      constructor
      · intro h
        injection h with h
        injection h with h1 h2
        exact ⟨0, by omega, by simp, by simpa using hG, by intro j hj; omega, by simp [h2]⟩
      · rintro ⟨k, hi, _, _, hfirst, hpm⟩
        have hk : k = 0 := by
          by_contra hk
          exact hfirst 0 (by omega) (by simpa using hG)
        subst hk
        simp at hpm
        simp [hi, hpm]
    · rw [if_neg hT, ih]
      have hG : ¬ (t ∈ prev.pids ∧ t ∉ g.pids) := fun h => hT ((targetGone_iff t prev g).mpr h)
      constructor
      · rintro ⟨k, hi, hk, hgone, hfirst, hpm⟩
        refine ⟨k + 1, by omega, by simp; omega, by simpa using hgone, ?_, by simpa using hpm⟩
        intro j hj
        cases j with
        | zero => simpa using hG
        | succ j => simpa using hfirst j (by omega)
      · rintro ⟨k, hi, hk, hgone, hfirst, hpm⟩
        cases k with
        | zero => exact absurd (by simpa using hgone) hG
        | succ k =>
          refine ⟨k, by omega, by simpa using hk, by simpa using hgone, ?_, by simpa using hpm⟩
          intro j hj
          simpa using hfirst (j + 1) (by omega)

theorem syscalls_cleanup (pid t : Int) (pm : ProcMap) (hself : pid ∈ pm.pids → pid = t) :
    syscalls (cleanup pid t pm) =
      (pm.pids.filter (fun x => x ≠ t)).flatMap (fun x => [.kill x .SIGKILL, .waitpid x]) := by
  induction pm with
  | nil => rfl
  | cons p pm ih =>
    have ih' := ih (fun h => hself (by simp [ProcMap.pids] at h ⊢; exact Or.inr h))
    unfold cleanup
    by_cases h : p.pid = t
    · rw [if_pos h, ih']
      simp [ProcMap.pids, h]
    · have hp : ¬ p.pid = pid := by
        intro hpp
        exact h (hpp.trans (hself (by simp [ProcMap.pids, hpp])))
      rw [if_neg h, if_neg hp]
      unfold syscalls at ih' ⊢
      simp only [List.filter_cons, ih']
      simp [ProcMap.pids, h, List.filter_cons]

theorem cleanup_stops_at_self (pid t : Int) (before after : ProcMap) (self : Process)
    (hs : self.pid = pid) (hne : pid ≠ t) (hb : pid ∉ before.pids) :
    cleanup pid t (before ++ self :: after) =
      cleanup pid t before ++ [.terminating pid self.cmd, .kill pid .SIGKILL] := by
  induction before with
  | nil =>
    subst hs
    simp only [List.nil_append, cleanup, if_neg hne, if_true]
  | cons p before ih =>
    have hb' : pid ∉ ProcMap.pids before := by
      intro h
      exact hb (by simp [ProcMap.pids] at h ⊢; exact Or.inr h)
    have hp : ¬ p.pid = pid := by
      intro h
      exact hb (by simp [ProcMap.pids, h])
    rw [List.cons_append]
    unfold cleanup
    by_cases h : p.pid = t
    · rw [if_pos h, if_pos h]
      exact ih hb'
    · rw [if_neg h, if_neg h, if_neg hp, if_neg hp, ih hb']
      rfl

theorem WF_pids_nodup (m : ProcMap) (h : m.WF) : m.pids.Nodup := by
  unfold ProcMap.pids
  unfold ProcMap.WF at h
  rw [List.Nodup, List.pairwise_map]
  exact h.imp (fun hab => ne_of_lt hab)

theorem prevGen_WF (gens : List ProcMap) (hwf : ∀ g ∈ gens, g.WF) (i : Nat) :
    (prevGen gens i).WF := by
  unfold prevGen
  cases i with
  | zero => exact List.Pairwise.nil
  | succ i =>
    rw [List.getD_cons_succ]
    by_cases hi : i < gens.length
    · rw [List.getD_eq_getElem _ _ hi]
      exact hwf _ (List.getElem_mem hi)
    · rw [List.getD_eq_default _ _ (by omega)]
      exact List.Pairwise.nil

theorem cleanup_spares_target (pid t : Int) (pm : ProcMap) (sig : Signal) :
    Event.kill t sig ∉ cleanup pid t pm ∧ Event.waitpid t ∉ cleanup pid t pm := by
  induction pm with
  | nil => simp [cleanup]
  | cons p pm ih =>
    unfold cleanup
    by_cases h : p.pid = t
    · rw [if_pos h]
      exact ih
    · rw [if_neg h]
      have h' : ¬ t = p.pid := fun e => h e.symm
      by_cases hp : p.pid = pid
      · rw [if_pos hp]
        simp [h']
      · rw [if_neg hp]
        simp [h', ih.1, ih.2]

/-- The polling loop and the cleanup when the monitor is not in the tree it watches. With
cycles numbered from 0 and `proc_map` empty before cycle 0, the loop breaks in cycle `i`
exactly when `i` is the first cycle whose previous generation contains the target and whose
new generation does not; it never breaks in cycle 0, and never at all when no generation
contains the target. When it breaks and the monitor's own pid is not a pid of the previous
generation other than the target, the system calls of the cleanup are a forceful kill
followed by a reap for each pid of the previous generation other than the target, each pid
once; the target is never signalled nor reaped. -/
theorem reconcile_stops_at_first_disappearance (pid target_pid : Int) (gens : List ProcMap)
    (hwf : ∀ g ∈ gens, g.WF) :
    (∀ i pm, reconcile target_pid gens = some (i, pm) ↔
      i < gens.length ∧
      (target_pid ∈ (prevGen gens i).pids ∧ target_pid ∉ (curGen gens i).pids) ∧
      (∀ j, j < i →
        ¬ (target_pid ∈ (prevGen gens j).pids ∧ target_pid ∉ (curGen gens j).pids)) ∧
      pm = prevGen gens i) ∧
    (∀ pm, reconcile target_pid gens ≠ some (0, pm)) ∧
    ((∀ g ∈ gens, target_pid ∉ g.pids) → reconcile target_pid gens = none) ∧
    (∀ i pm, reconcile target_pid gens = some (i, pm) →
      ((pid ∈ (prevGen gens i).pids → pid = target_pid) →
        syscalls (cleanup pid target_pid pm) =
          ((prevGen gens i).pids.filter (fun x => x ≠ target_pid)).flatMap
            (fun x => [.kill x .SIGKILL, .waitpid x])) ∧
      ((prevGen gens i).pids.filter (fun x => x ≠ target_pid)).Nodup ∧
      ∀ sig, Event.kill target_pid sig ∉ cleanup pid target_pid pm ∧
        Event.waitpid target_pid ∉ cleanup pid target_pid pm) := by
  have hiff : ∀ i pm, reconcile target_pid gens = some (i, pm) ↔
      i < gens.length ∧
      (target_pid ∈ (prevGen gens i).pids ∧ target_pid ∉ (curGen gens i).pids) ∧
      (∀ j, j < i →
        ¬ (target_pid ∈ (prevGen gens j).pids ∧ target_pid ∉ (curGen gens j).pids)) ∧
      pm = prevGen gens i := by
    intro i pm
    unfold reconcile prevGen curGen
    rw [reconcileFrom_iff]
    constructor
    · rintro ⟨k, hi, h⟩
      have hik : i = k := by omega
      subst hik
      exact h
    · intro h
      exact ⟨i, by omega, h⟩
  refine ⟨hiff, ?_, ?_, ?_⟩
  · intro pm h
    have h0 := ((hiff 0 pm).mp h).2.1.1
    simp [prevGen, ProcMap.pids] at h0
  · intro hnone
    cases hr : reconcile target_pid gens with
    | none => rfl
    | some stop =>
      exfalso
      obtain ⟨i, pm⟩ := stop
      have h := ((hiff i pm).mp hr).2.1.1
      cases i with
      | zero => simp [prevGen, ProcMap.pids] at h
      | succ i =>
        have hlen := ((hiff (i + 1) pm).mp hr).1
        unfold prevGen at h
        rw [List.getD_cons_succ, List.getD_eq_getElem _ _ (by omega)] at h
        exact hnone _ (List.getElem_mem _) h
  · intro i pm h
    have hpm := ((hiff i pm).mp h).2.2.2
    subst hpm
    exact ⟨fun hself => syscalls_cleanup pid target_pid _ hself,
      (WF_pids_nodup _ (prevGen_WF gens hwf i)).filter _,
      fun sig => cleanup_spares_target pid target_pid _ sig⟩

/-- The generations of the specification (pids 1 and 2, again 1 and 2, then 2 alone, target
1), watched by a monitor with pid 50 outside the tree: the loop breaks in the third cycle,
holding the second generation, and the cleanup kills and reaps pid 2 and nothing else. -/
theorem reconcile_stops_at_first_disappearance_example :
    (∀ g ∈ specGens, g.WF) ∧
    reconcile 1 specGens = some (2, specGen12) ∧
    syscalls (cleanup 50 1 specGen12) = [.kill 2 .SIGKILL, .waitpid 2] ∧
    ((prevGen specGens 2).pids.filter (fun x => x ≠ 1)).Nodup :=
  ⟨by decide, by decide, by decide,
   ((reconcile_stops_at_first_disappearance 50 1 specGens (by decide)).2.2.2 2 specGen12
      (by decide)).2.1⟩

/-- C2, the input on which the cleanup falls short of it: the monitor (pid 200) is itself a
child of the target (pid 100), next to another child (pid 300). The first cycle admits all
three, in the second the target is gone and the loop breaks holding the first generation;
the cleanup, in key order, reaches its own entry first and sends SIGKILL to itself, which
ends it: pid 200 is not reaped and pid 300 is neither killed nor reaped, although both are
pids of the previous generation other than the target. -/
theorem cleanup_kills_itself_first :
    (snapshot 100 selfListing).pids = [100, 200, 300] ∧
    snapshot 100 selfListingAfter = [] ∧
    reconcile 100 [snapshot 100 selfListing, snapshot 100 selfListingAfter] =
      some (1, snapshot 100 selfListing) ∧
    monitor 200 100 [selfListing, selfListingAfter] =
      some [.terminating 200 "a1mon 100 ", .kill 200 .SIGKILL] ∧
    Event.waitpid 200 ∉ cleanup 200 100 (snapshot 100 selfListing) ∧
    Event.kill 300 .SIGKILL ∉ cleanup 200 100 (snapshot 100 selfListing) ∧
    Event.waitpid 300 ∉ cleanup 200 100 (snapshot 100 selfListing) ∧
    (200 : Int) ∈ (snapshot 100 selfListing).pids.filter (fun x => x ≠ 100) ∧
    (300 : Int) ∈ (snapshot 100 selfListing).pids.filter (fun x => x ≠ 100) := by
  decide

/-! ### Malformed rows -/

theorem parseRow_malformed (row : Row) (h : malformed row = true) : parseRow row = none := by
  unfold malformed at h
  unfold parseRow
  cases h1 : row[1]? with
  | none => rfl
  | some f1 =>
    cases h2 : row[2]? with
    | none => rfl
    | some f2 =>
      rw [h1, h2] at h
      simp only [Bool.or_eq_true, nonNumeric, decide_eq_true_eq] at h
      rcases h with h | h
      · simp only [h]
      · simp only [h]
        cases stoi f1 <;> rfl

theorem parsedRows_filter_malformed (rows : List Row) :
    parsedRows (rows.filter (fun r => !malformed r)) = parsedRows rows := by
  induction rows with
  | nil => rfl
  | cons r rows ih =>
    unfold parsedRows at ih ⊢
    by_cases h : malformed r = true
    · rw [List.filter_cons_of_neg (by simp [h]), ih, List.filterMap_cons,
        parseRow_malformed r h]
    · rw [List.filter_cons_of_pos (by simp [h]), List.filterMap_cons, List.filterMap_cons, ih]

/-- C10: a malformed row (too short to have the pid and parent-pid fields, or with one of
them non-numeric) leaves `new_proc_map` as it is, so a row after it is treated as if the
malformed row were not there, and the generation of a listing is the generation of the
listing with its malformed rows removed. -/
theorem snapshot_skips_malformed (target_pid : Int) (rows : List Row) :
    (∀ (m : ProcMap) (bad : Row), malformed bad = true → acceptRow target_pid m bad = m) ∧
    (∀ (m : ProcMap) (bad next : Row), malformed bad = true →
      acceptRow target_pid (acceptRow target_pid m bad) next = acceptRow target_pid m next) ∧
    snapshot target_pid rows = snapshot target_pid (rows.filter (fun r => !malformed r)) := by
  have h1 : ∀ (m : ProcMap) (bad : Row), malformed bad = true →
      acceptRow target_pid m bad = m := by
    intro m bad hbad
    unfold acceptRow
    rw [parseRow_malformed bad hbad]
  refine ⟨h1, ?_, ?_⟩
  · intro m bad next hbad
    rw [h1 m bad hbad]
  · unfold snapshot
    rw [snapshotFrom_eq_foldl, snapshotFrom_eq_foldl, parsedRows_filter_malformed]

/-- C10 on the example of the specification: the row with pid field `abc` and parent field
`def` is malformed and is skipped, and the well-formed row of target 1 after it is accepted. -/
theorem snapshot_skips_malformed_witness :
    malformed specMalformedRow = true ∧
    acceptRow 1 [] specMalformedRow = [] ∧
    (snapshot 1 [specMalformedRow, ["u", "1", "0", "S", "t", "target", "a", "b"]]).pids = [1] ∧
    snapshot 1 [specMalformedRow, ["u", "1", "0", "S", "t", "target", "a", "b"]] =
      snapshot 1 ([specMalformedRow, ["u", "1", "0", "S", "t", "target", "a", "b"]].filter
        (fun r => !malformed r)) :=
  ⟨by decide,
   (snapshot_skips_malformed 1 []).1 [] specMalformedRow (by decide),
   by decide,
   (snapshot_skips_malformed 1
      [specMalformedRow, ["u", "1", "0", "S", "t", "target", "a", "b"]]).2.2⟩

/-! ### Order sensitivity -/

theorem foldl_admitProc_origin (t : Int) (ps : List Process) :
    ∀ (m : ProcMap) (x : Int), x ∈ (ps.foldl (admitProc t) m).pids →
      x ∈ m.pids ∨ x ∈ ps.map Process.pid := by
  induction ps with
  | nil => intro m x hx; exact Or.inl hx
  | cons p ps ih =>
    intro m x hx
    rw [List.foldl_cons] at hx
    rcases ih _ x hx with h | h
    · rcases (mem_pids_admitProc t m p x).mp h with h | ⟨h, _⟩
      · exact Or.inl h
      · exact Or.inr (by rw [h]; simp)
    · exact Or.inr (by simp only [List.map_cons, List.mem_cons]; exact Or.inr h)

theorem parsedRows_split (pre mid post : List Row) (r q : Row) (pr pq : Process)
    (hr : parseRow r = some pr) (hq : parseRow q = some pq) :
    parsedRows (pre ++ r :: (mid ++ q :: post)) =
      parsedRows pre ++ pr :: (parsedRows mid ++ pq :: parsedRows post) := by
  unfold parsedRows
  rw [List.filterMap_append, List.filterMap_cons, hr, List.filterMap_append,
    List.filterMap_cons, hq]

/-- C11: in a listing of well-formed rows with pairwise distinct pids, a row whose pid is not
the target and that stands before the row of its parent is not admitted: its pid is not in
the generation, whatever happens to the parent's row later. -/
theorem snapshot_order_sensitive (target_pid : Int) (pre mid post : List Row) (r q : Row)
    (pr pq : Process)
    (_hwell : ∀ row ∈ pre ++ r :: (mid ++ q :: post), (parseRow row).isSome = true)
    (hdistinct : ((parsedRows (pre ++ r :: (mid ++ q :: post))).map Process.pid).Nodup)
    (hr : parseRow r = some pr) (hq : parseRow q = some pq)
    (hnot : pr.pid ≠ target_pid) (hparent : pq.pid = pr.ppid) :
    pr.pid ∉ (snapshot target_pid (pre ++ r :: (mid ++ q :: post))).pids := by
  unfold snapshot
  rw [snapshotFrom_eq_foldl]
  rw [parsedRows_split pre mid post r q pr pq hr hq] at hdistinct ⊢
  rw [List.map_append, List.map_cons, List.map_append, List.map_cons] at hdistinct
  obtain ⟨_, htail, hdisj⟩ := List.nodup_append.mp hdistinct
  obtain ⟨hprnot, _⟩ := List.nodup_cons.mp htail
  have hpq_tail : pq.pid ∈ pr.pid :: (List.map Process.pid (parsedRows mid) ++
      pq.pid :: List.map Process.pid (parsedRows post)) := by simp
  have hpr_tail : pr.pid ∈ pr.pid :: (List.map Process.pid (parsedRows mid) ++
      pq.pid :: List.map Process.pid (parsedRows post)) := by simp
  rw [List.foldl_append, List.foldl_cons]
  have hparent_out : pr.ppid ∉ ((parsedRows pre).foldl (admitProc target_pid) []).pids := by
    intro h
    rcases foldl_admitProc_origin target_pid _ [] _ h with h | h
    · simp [ProcMap.pids] at h
    · rw [← hparent] at h
      exact hdisj h hpq_tail
  have hskip : admitProc target_pid ((parsedRows pre).foldl (admitProc target_pid) []) pr =
      (parsedRows pre).foldl (admitProc target_pid) [] := by
    unfold admitProc
    rw [if_neg]
    rintro (h | h)
    · exact hnot h
    · exact hparent_out ((ProcMap.contains_iff _ _).mp h)
  rw [hskip]
  intro h
  rcases foldl_admitProc_origin target_pid _ _ _ h with h | h
  · rcases foldl_admitProc_origin target_pid _ [] _ h with h | h
    · simp [ProcMap.pids] at h
    · exact hdisj h hpr_tail
  · rw [List.map_append, List.map_cons] at h
    exact hprnot h

/-- C11 on the reordered listing of the specification: the child's row stands before the
target's row, and the generation is the target alone. -/
theorem snapshot_order_sensitive_witness :
    (∀ row ∈ specReordered, (parseRow row).isSome = true) ∧
    ((parsedRows specReordered).map Process.pid).Nodup ∧
    (snapshot 1 specReordered).pids = [1] ∧
    (2 : Int) ∉ (snapshot 1 ([] ++ ["u", "2", "1", "S", "t", "child", "a", "b"] ::
      ([] ++ ["u", "1", "0", "S", "t", "target", "a", "b"] :: []))).pids :=
  ⟨by decide, by decide, by decide,
   snapshot_order_sensitive 1 [] [] [] ["u", "2", "1", "S", "t", "child", "a", "b"]
     ["u", "1", "0", "S", "t", "target", "a", "b"] ⟨2, 1, "child "⟩ ⟨1, 0, "target "⟩
     (by decide) (by decide) (by decide) (by decide) (by decide) (by decide)⟩

/-! ### Rooted and parent-closed generations -/

theorem ProcMap.mem_insert_of_mem (m : ProcMap) (p e : Process) (h : e ∈ m) :
    e ∈ m.insert p := by
  induction m with
  | nil => simp at h
  | cons q m ih =>
    unfold ProcMap.insert
    split_ifs
    · exact List.mem_cons_of_mem _ h
    · exact h
    · rcases List.mem_cons.mp h with h | h
      · rw [h]; exact List.mem_cons_self _ _
      · exact List.mem_cons_of_mem _ (ih h)

theorem ProcMap.mem_insert (m : ProcMap) (p e : Process) (h : e ∈ m.insert p) :
    e = p ∨ e ∈ m := by
  induction m with
  | nil =>
    simp only [ProcMap.insert, List.mem_singleton] at h
    exact Or.inl h
  | cons q m ih =>
    unfold ProcMap.insert at h
    split_ifs at h
    · rcases List.mem_cons.mp h with h | h
      · exact Or.inl h
      · exact Or.inr h
    · exact Or.inr h
    · rcases List.mem_cons.mp h with h | h
      · exact Or.inr (by rw [h]; exact List.mem_cons_self _ _)
      · rcases ih h with h | h
        · exact Or.inl h
        · exact Or.inr (List.mem_cons_of_mem _ h)

theorem ProcMap.insert_present (m : ProcMap) (p : Process) (hwf : m.WF)
    (h : p.pid ∈ m.pids) : m.insert p = m := by
  induction m with
  | nil => simp [ProcMap.pids] at h
  | cons q m ih =>
    unfold ProcMap.WF at hwf
    rw [List.pairwise_cons] at hwf
    unfold ProcMap.insert
    have hmem : p.pid = q.pid ∨ p.pid ∈ ProcMap.pids m := by
      simpa [ProcMap.pids] using h
    by_cases h1 : p.pid < q.pid
    · exfalso
      rcases hmem with h2 | h2
      · omega
      · obtain ⟨b, hb, hbp⟩ := List.mem_map.mp h2
        have := hwf.1 b hb
        omega
    · rw [if_neg h1]
      by_cases h2 : p.pid = q.pid
      · rw [if_pos h2]
      · rw [if_neg h2]
        rcases hmem with h3 | h3
        · exact absurd h3 h2
        · rw [ih hwf.2 h3]

theorem ProcMap.eq_of_pid_eq_of_WF (m : ProcMap) (hwf : m.WF) (e e2 : Process)
    (he : e ∈ m) (he2 : e2 ∈ m) (h : e.pid = e2.pid) : e = e2 := by
  induction m with
  | nil => simp at he
  | cons q m ih =>
    unfold ProcMap.WF at hwf
    rw [List.pairwise_cons] at hwf
    rcases List.mem_cons.mp he with h1 | h1 <;> rcases List.mem_cons.mp he2 with h2 | h2
    · rw [h1, h2]
    · have := hwf.1 e2 h2
      rw [h1] at h
      omega
    · have := hwf.1 e h1
      rw [h2] at h
      omega
    · exact ih hwf.2 h1 h2

theorem mem_admitProc_of_mem (t : Int) (m : ProcMap) (p e : Process) (h : e ∈ m) :
    e ∈ admitProc t m p := by
  unfold admitProc
  split_ifs
  · exact ProcMap.mem_insert_of_mem m p e h
  · exact h

theorem foldl_admitProc_mem_mono (t : Int) (ps : List Process) :
    ∀ (m : ProcMap) (e : Process), e ∈ m → e ∈ ps.foldl (admitProc t) m := by
  induction ps with
  | nil => intro m e h; exact h
  | cons p ps ih =>
    intro m e h
    exact ih _ e (mem_admitProc_of_mem t m p e h)

theorem foldl_admitProc_rooted (t : Int) (all ps : List Process) :
    ∀ (m : ProcMap), (∀ p ∈ ps, p ∈ all) →
      (∀ e ∈ m, e ∈ all ∧ (e.pid = t ∨ e.ppid ∈ m.pids)) →
      ∀ e ∈ ps.foldl (admitProc t) m,
        e ∈ all ∧ (e.pid = t ∨ e.ppid ∈ (ps.foldl (admitProc t) m).pids) := by
  induction ps with
  | nil => intro m _ hm; exact hm
  | cons p ps ih =>
    intro m hps hm
    refine ih (admitProc t m p) (fun x hx => hps x (List.mem_cons_of_mem _ hx)) ?_
    intro e he
    have hkeep : ∀ x, x ∈ m.pids → x ∈ (admitProc t m p).pids :=
      fun x hx => (mem_pids_admitProc t m p x).mpr (Or.inl hx)
    unfold admitProc at he
    split_ifs at he with hadm
    · rcases ProcMap.mem_insert m p e he with h | h
      · subst h
        refine ⟨hps e (List.mem_cons_self _ _), ?_⟩
        rcases hadm with h1 | h1
        · exact Or.inl h1
        · exact Or.inr (hkeep _ ((ProcMap.contains_iff _ _).mp h1))
      · exact ⟨(hm e h).1, (hm e h).2.imp id (hkeep _)⟩
    · exact ⟨(hm e he).1, (hm e he).2.imp id (hkeep _)⟩

theorem foldl_admitProc_no_target (t : Int) (ps : List Process)
    (h : ∀ p ∈ ps, p.pid ≠ t) : ps.foldl (admitProc t) [] = [] := by
  induction ps with
  | nil => rfl
  | cons p ps ih =>
    rw [List.foldl_cons]
    have hp : admitProc t [] p = [] := by
      unfold admitProc
      rw [if_neg]
      rintro (h1 | h1)
      · exact h p (List.mem_cons_self _ _) h1
      · simp [ProcMap.contains] at h1
    rw [hp]
    exact ih (fun x hx => h x (List.mem_cons_of_mem _ hx))

theorem foldl_admitProc_target (t : Int) (ps : List Process) :
    ∀ (m : ProcMap) (p : Process), p ∈ ps → p.pid = t →
      t ∈ (ps.foldl (admitProc t) m).pids := by
  induction ps with
  | nil => intro m p hp; simp at hp
  | cons q ps ih =>
    intro m p hp hpt
    rw [List.foldl_cons]
    rcases List.mem_cons.mp hp with h | h
    · subst h
      have h1 : t ∈ (admitProc t m p).pids :=
        (mem_pids_admitProc t m p t).mpr (Or.inr ⟨hpt.symm, Or.inl hpt⟩)
      obtain ⟨e, he, hep⟩ := List.mem_map.mp h1
      exact List.mem_map.mpr ⟨e, foldl_admitProc_mem_mono t ps _ e he, hep⟩
    · exact ih _ p h hpt

/-- C17: for every listing and target, with no condition on order or on distinct pids, every
entry of the generation is a parsed row of the listing that is the target or whose parent
pid is in the generation, so every pid of the generation is the target or the pid of a row
whose parent pid is in the generation; when no parsed row has the target as pid, and
whenever the generation lacks the target, the generation is empty; an entry once in the map
stays as it is while further rows are read, an insertion under a pid that is present changes
nothing, and the map holds one entry per pid, so of two rows with the same pid the first one
accepted is kept. -/
theorem generation_rooted_parent_closed (target_pid : Int) (rows : List Row) :
    (∀ e ∈ snapshot target_pid rows,
      e ∈ parsedRows rows ∧
        (e.pid = target_pid ∨ e.ppid ∈ (snapshot target_pid rows).pids)) ∧
    (∀ x ∈ (snapshot target_pid rows).pids,
      x = target_pid ∨
        ∃ p ∈ parsedRows rows, p.pid = x ∧ p.ppid ∈ (snapshot target_pid rows).pids) ∧
    ((∀ p ∈ parsedRows rows, p.pid ≠ target_pid) → snapshot target_pid rows = []) ∧
    (target_pid ∉ (snapshot target_pid rows).pids → snapshot target_pid rows = []) ∧
    (∀ (more : List Row) (e : Process), e ∈ snapshot target_pid rows →
      e ∈ snapshot target_pid (rows ++ more)) ∧
    (∀ p : Process, p.pid ∈ (snapshot target_pid rows).pids →
      (snapshot target_pid rows).insert p = snapshot target_pid rows) ∧
    (∀ e e2 : Process, e ∈ snapshot target_pid rows → e2 ∈ snapshot target_pid rows →
      e.pid = e2.pid → e = e2) := by
  have hrooted : ∀ e ∈ snapshot target_pid rows,
      e ∈ parsedRows rows ∧
        (e.pid = target_pid ∨ e.ppid ∈ (snapshot target_pid rows).pids) := by
    unfold snapshot
    rw [snapshotFrom_eq_foldl]
    exact foldl_admitProc_rooted target_pid (parsedRows rows) (parsedRows rows) []
      (fun p hp => hp) (by intro e he; simp at he)
  have hnone : (∀ p ∈ parsedRows rows, p.pid ≠ target_pid) → snapshot target_pid rows = [] := by
    intro h
    unfold snapshot
    rw [snapshotFrom_eq_foldl]
    exact foldl_admitProc_no_target target_pid _ h
  refine ⟨hrooted, ?_, hnone, ?_, ?_, ?_, ?_⟩
  · intro x hx
    obtain ⟨e, he, hex⟩ := List.mem_map.mp hx
    rcases (hrooted e he).2 with h | h
    · exact Or.inl (hex.symm.trans h)
    · exact Or.inr ⟨e, (hrooted e he).1, hex, h⟩
  · intro hlack
    apply hnone
    intro p hp hpt
    apply hlack
    unfold snapshot
    rw [snapshotFrom_eq_foldl]
    exact foldl_admitProc_target target_pid _ [] p hp hpt
  · intro more e he
    unfold snapshot at he ⊢
    rw [snapshotFrom_eq_foldl] at he ⊢
    unfold parsedRows at he ⊢
    rw [List.filterMap_append, List.foldl_append]
    exact foldl_admitProc_mem_mono target_pid _ _ e he
  · intro p hp
    exact ProcMap.insert_present _ p (snapshot_WF target_pid rows) hp
  · intro e e2 he he2 h
    exact ProcMap.eq_of_pid_eq_of_WF _ (snapshot_WF target_pid rows) e e2 he he2 h

/-- C17 on two listings: of two rows with pid 2 the first is kept, and a listing without a
row for the target gives the empty generation. -/
theorem generation_rooted_parent_closed_witness :
    snapshot 1 specDuplicate = [⟨1, 0, "target "⟩, ⟨2, 1, "first "⟩] ∧
    snapshot 5 specListing = [] :=
  ⟨by decide, (generation_rooted_parent_closed 5 specListing).2.2.1 (by decide)⟩

/-! ### The shape of a row -/

theorem cmdText_words (pre words : List String) (y z : String) (hpre : pre.length = 5) :
    cmdText (pre ++ words ++ [y, z]) = String.join (words.map (fun s => s ++ " ")) := by
  unfold cmdText
  have hlen : (pre ++ words ++ [y, z]).length - 2 - 5 = words.length := by
    simp only [List.length_append, List.length_cons, List.length_nil]
    omega
  rw [hlen, List.append_assoc, List.drop_left' hpre, List.take_left']
  rfl

theorem cmdText_short (row : Row) (h : row.length < 8) : cmdText row = "" := by
  unfold cmdText
  have hlen : row.length - 2 - 5 = 0 := by omega
  rw [hlen]
  rfl

/-- The row is numeric in fields 2 and 3, yet it is not parsed: the pid does not fit an
`int`, `stoi` throws `out_of_range` and the row is skipped. -/
theorem parseRow_huge_pid_skipped :
    specHugePidRow[1]? = some "99999999999" ∧ specHugePidRow[2]? = some "1" ∧
    Numeric "99999999999" ∧ Numeric "1" ∧ parseRow specHugePidRow = none :=
  ⟨rfl, rfl,
   ⟨false, "99999999999".data, [], [], [], rfl, by simp, Or.inl ⟨rfl, rfl⟩, by decide,
     by decide, by simp⟩,
   ⟨false, "1".data, [], [], [], rfl, by simp, Or.inl ⟨rfl, rfl⟩, by decide,
     by decide, by simp⟩,
   by decide⟩

/-- C14, amended: a row is parsed into a process exactly when it has fields 2 and 3 and each
of them is numeric (starts with a decimal integer) with a value that fits an `int`; the pid
and parent pid are these values and the command text is `cmdText`, which for a row made of
five fields, the command words and two last fields is the command words in order, each
followed by a blank, and is empty for a row of fewer than 8 fields. Every other row is
skipped: it leaves the map as it is. -/
theorem parseRow_shape (row : Row) (p : Process) :
    (parseRow row = some p ↔
      ∃ f2 f3, row[1]? = some f2 ∧ row[2]? = some f3 ∧ IntField f2 p.pid ∧
        IntField f3 p.ppid ∧ p.cmd = cmdText row) ∧
    (∀ (pre words : List String) (y z : String), pre.length = 5 →
      cmdText (pre ++ words ++ [y, z]) = String.join (words.map (fun s => s ++ " "))) ∧
    (row.length < 8 → cmdText row = "") ∧
    ((¬ ∃ f2 f3 v2 v3, row[1]? = some f2 ∧ row[2]? = some f3 ∧ IntField f2 v2 ∧
        IntField f3 v3) →
      parseRow row = none ∧ ∀ (t : Int) (m : ProcMap), acceptRow t m row = m) := by
  have hiff : ∀ q : Process, parseRow row = some q ↔
      ∃ f2 f3, row[1]? = some f2 ∧ row[2]? = some f3 ∧ IntField f2 q.pid ∧
        IntField f3 q.ppid ∧ q.cmd = cmdText row := by
    intro q
    unfold parseRow
    constructor
    · intro h
      cases h1 : row[1]? with
      | none => rw [h1] at h; simp at h
      | some f2 =>
        cases h2 : row[2]? with
        | none => rw [h1, h2] at h; simp at h
        | some f3 =>
          rw [h1, h2] at h
          simp only at h
          cases h3 : stoi f2 with
          | error e => rw [h3] at h; simp at h
          | ok v2 =>
            cases h4 : stoi f3 with
            | error e => rw [h3, h4] at h; simp at h
            | ok v3 =>
              rw [h3, h4] at h
              simp only [Option.some.injEq] at h
              subst h
              exact ⟨f2, f3, rfl, rfl, (stoi_ok_iff f2 v2).mp h3, (stoi_ok_iff f3 v3).mp h4,
                rfl⟩
    · rintro ⟨f2, f3, h1, h2, h3, h4, h5⟩
      rw [h1, h2]
      simp only [(stoi_ok_iff f2 q.pid).mpr h3, (stoi_ok_iff f3 q.ppid).mpr h4, ← h5]
  refine ⟨hiff p, fun pre words y z hpre => cmdText_words pre words y z hpre,
    cmdText_short row, ?_⟩
  intro hno
  have hnone : parseRow row = none := by
    cases hp : parseRow row with
    | none => rfl
    | some q =>
      exfalso
      obtain ⟨f2, f3, h1, h2, h3, h4, _⟩ := (hiff q).mp hp
      exact hno ⟨f2, f3, q.pid, q.ppid, h1, h2, h3, h4⟩
  refine ⟨hnone, ?_⟩
  intro t m
  unfold acceptRow
  rw [hnone]

/-- C14 on rows of the example listing: the target's row is parsed to pid 1, parent 0 and
command `target`, and the row with the pid too large for an `int` is skipped. -/
theorem parseRow_shape_witness :
    parseRow ["u", "1", "0", "S", "t", "target", "a", "b"] = some ⟨1, 0, "target "⟩ ∧
    (∃ f2 f3, (["u", "1", "0", "S", "t", "target", "a", "b"] : Row)[1]? = some f2 ∧
      (["u", "1", "0", "S", "t", "target", "a", "b"] : Row)[2]? = some f3 ∧
      IntField f2 (⟨1, 0, "target "⟩ : Process).pid ∧
      IntField f3 (⟨1, 0, "target "⟩ : Process).ppid ∧
      (⟨1, 0, "target "⟩ : Process).cmd =
        cmdText ["u", "1", "0", "S", "t", "target", "a", "b"]) :=
  ⟨by decide,
   (parseRow_shape ["u", "1", "0", "S", "t", "target", "a", "b"] ⟨1, 0, "target "⟩).1.mp
     (by decide)⟩

end A1mon

namespace A1jobs

/-! ### `terminate` and the `exit` loop -/

/-- The three events of one effective `terminate`. -/
theorem terminate_live (wstatus : Int) (job : Job) (h : job.terminated = false) :
    terminate wstatus job =
      ({ job with terminated := true }, wstatus,
        [.kill job.hproc .SIGKILL, .out (.terminated job.hproc), .waitpid job.hproc]) := by
  simp [terminate, h]

theorem terminate_dead (wstatus : Int) (job : Job) (h : job.terminated = true) :
    terminate wstatus job = (job, 0, []) := by
  simp [terminate, h]

/-- C5: `terminate` on a job that is not terminated sends one SIGKILL to the head process,
sets the flag, reaps the process once and returns the status left by `waitpid`; `terminate`
on the resulting job has no event at all, returns the job unchanged and the status 0. -/
theorem terminate_idempotent (wstatus wstatus2 : Int) (job : Job)
    (h : job.terminated = false) :
    (terminate wstatus job).1 = { job with terminated := true } ∧
    (terminate wstatus job).2.1 = wstatus ∧
    (terminate wstatus job).2.2 =
      [.kill job.hproc .SIGKILL, .out (.terminated job.hproc), .waitpid job.hproc] ∧
    signalled .SIGKILL (terminate wstatus job).2.2 = [job.hproc] ∧
    signalled .SIGSTOP (terminate wstatus job).2.2 = [] ∧
    signalled .SIGCONT (terminate wstatus job).2.2 = [] ∧
    reaps (terminate wstatus job).2.2 = [job.hproc] ∧
    terminate wstatus2 (terminate wstatus job).1 = ((terminate wstatus job).1, 0, []) := by
  rw [terminate_live wstatus job h]
  refine ⟨rfl, rfl, rfl, ?_, ?_, ?_, ?_, ?_⟩
  · simp [signalled]
  · simp [signalled]
  · simp [signalled]
  · simp [reaps]
  · exact terminate_dead wstatus2 _ rfl

/-- C5 on a job with head process 4242: killed and reaped once with status 9, then nothing. -/
theorem terminate_idempotent_witness :
    (⟨0, 4242, ["sleep", "100"], false⟩ : Job).terminated = false ∧
    terminate 9 ⟨0, 4242, ["sleep", "100"], false⟩ =
      (⟨0, 4242, ["sleep", "100"], true⟩, 9,
        [.kill 4242 .SIGKILL, .out (.terminated 4242), .waitpid 4242]) ∧
    terminate 7 (terminate 9 ⟨0, 4242, ["sleep", "100"], false⟩).1 =
      ((terminate 9 ⟨0, 4242, ["sleep", "100"], false⟩).1, 0, []) :=
  ⟨rfl, by decide,
   (terminate_idempotent 9 7 ⟨0, 4242, ["sleep", "100"], false⟩ rfl).2.2.2.2.2.2.2⟩

theorem terminate_fst (wstatus : Int) (job : Job) :
    (terminate wstatus job).1 = { job with terminated := true } := by
  unfold terminate
  cases h : job.terminated
  · simp
  · obtain ⟨i, hp, c, t⟩ := job
    simp only at h
    simp [h]

theorem terminate_events (wstatus : Int) (job : Job) :
    (terminate wstatus job).2.2 =
      if job.terminated = true then []
      else [.kill job.hproc .SIGKILL, .out (.terminated job.hproc), .waitpid job.hproc] := by
  unfold terminate
  cases h : job.terminated <;> simp

theorem terminateAll_jobs (ws : Int → Int) (jobs : List Job) :
    (terminateAll ws jobs).1 = jobs.map (fun j => (terminate (ws j.hproc) j).1) := by
  induction jobs with
  | nil => rfl
  | cons j jobs ih => simp [terminateAll, ih]

theorem terminateAll_events (ws : Int → Int) (jobs : List Job) :
    (terminateAll ws jobs).2 = jobs.flatMap (fun j => (terminate (ws j.hproc) j).2.2) := by
  induction jobs with
  | nil => rfl
  | cons j jobs ih => simp [terminateAll, ih, List.flatMap_cons]

theorem terminateAll_events_live (ws : Int → Int) (jobs : List Job) :
    (terminateAll ws jobs).2 =
      (jobs.filter (fun j => !j.terminated)).flatMap (fun j =>
        [.kill j.hproc .SIGKILL, .out (.terminated j.hproc), .waitpid j.hproc]) := by
  induction jobs with
  | nil => rfl
  | cons j jobs ih =>
    have hc : (terminateAll ws (j :: jobs)).2 =
        (terminate (ws j.hproc) j).2.2 ++ (terminateAll ws jobs).2 := rfl
    rw [hc, ih, terminate_events]
    cases h : j.terminated <;> simp [List.filter_cons, h, List.flatMap_cons]

theorem reaps_append (a b : List Event) : reaps (a ++ b) = reaps a ++ reaps b := by
  simp [reaps, List.filterMap_append]

theorem signalled_append (sig : Signal) (a b : List Event) :
    signalled sig (a ++ b) = signalled sig a ++ signalled sig b := by
  simp [signalled, List.filterMap_append]

theorem reaps_live (jobs : List Job) :
    reaps (jobs.flatMap (fun j =>
        [.kill j.hproc .SIGKILL, .out (.terminated j.hproc), .waitpid j.hproc])) =
      jobs.map Job.hproc := by
  induction jobs with
  | nil => rfl
  | cons j jobs ih =>
    rw [List.flatMap_cons, reaps_append, ih]
    simp [reaps]

theorem signalled_live (sig : Signal) (jobs : List Job) :
    signalled sig (jobs.flatMap (fun j =>
        [.kill j.hproc .SIGKILL, .out (.terminated j.hproc), .waitpid j.hproc])) =
      if sig = .SIGKILL then jobs.map Job.hproc else [] := by
  induction jobs with
  | nil => simp [signalled]
  | cons j jobs ih =>
    rw [List.flatMap_cons, signalled_append, ih]
    cases sig <;> simp [signalled]

theorem terminateAll_dead (ws : Int → Int) (jobs : List Job)
    (h : ∀ j ∈ jobs, j.terminated = true) : terminateAll ws jobs = (jobs, []) := by
  induction jobs with
  | nil => rfl
  | cons j jobs ih =>
    have hj := h j (by simp)
    have ih' := ih (fun x hx => h x (by simp [hx]))
    simp [terminateAll, terminate_dead _ j hj, ih']

/-- C6: the `exit` command runs `terminate` on every job in table order and ends the loop.
Afterwards every job is terminated and nothing else in the table has changed; the events
are one kill, message and reap for each job that was not yet terminated, in table order, and
none for the others; running the loop again on the resulting table has no event and changes
nothing. -/
theorem exit_terminates_all (ws ws2 : Int → Int) (jobs : List Job) (args : List String)
    (fk : Int) :
    step jobs ⟨"exit" :: args, fk, ws⟩ =
      ⟨(terminateAll ws jobs).1, (terminateAll ws jobs).2, false⟩ ∧
    (terminateAll ws jobs).1 = jobs.map (fun j => (terminate (ws j.hproc) j).1) ∧
    (terminateAll ws jobs).2 = jobs.flatMap (fun j => (terminate (ws j.hproc) j).2.2) ∧
    (∀ j ∈ (terminateAll ws jobs).1, j.terminated = true) ∧
    (terminateAll ws jobs).1 = jobs.map (fun j => { j with terminated := true }) ∧
    (terminateAll ws jobs).2 =
      (jobs.filter (fun j => !j.terminated)).flatMap (fun j =>
        [.kill j.hproc .SIGKILL, .out (.terminated j.hproc), .waitpid j.hproc]) ∧
    signalled .SIGKILL (terminateAll ws jobs).2 =
      (jobs.filter (fun j => !j.terminated)).map Job.hproc ∧
    reaps (terminateAll ws jobs).2 = (jobs.filter (fun j => !j.terminated)).map Job.hproc ∧
    terminateAll ws2 (terminateAll ws jobs).1 = ((terminateAll ws jobs).1, []) := by
  have hjobs : (terminateAll ws jobs).1 = jobs.map (fun j => { j with terminated := true }) := by
    rw [terminateAll_jobs]
    exact List.map_congr_left (fun j _ => terminate_fst _ j)
  have hall : ∀ j ∈ (terminateAll ws jobs).1, j.terminated = true := by
    intro j hj
    rw [hjobs] at hj
    obtain ⟨j0, _, rfl⟩ := List.mem_map.mp hj
    rfl
  refine ⟨?_, terminateAll_jobs ws jobs, terminateAll_events ws jobs, hall, hjobs,
    terminateAll_events_live ws jobs, ?_, ?_, terminateAll_dead ws2 _ hall⟩
  · simp [step]
  · rw [terminateAll_events_live, signalled_live, if_pos rfl]
  · rw [terminateAll_events_live, reaps_live]

/-- C6 on the sample table (job 0 terminated, job 1 not): only job 1 is killed and reaped,
both jobs are terminated afterwards, and a second pass does nothing. -/
theorem exit_terminates_all_witness :
    terminateAll (fun _ => 9) sampleTable =
      ([⟨0, 101, ["sleep", "100"], true⟩, ⟨1, 102, ["xclock"], true⟩],
        [.kill 102 .SIGKILL, .out (.terminated 102), .waitpid 102]) ∧
    terminateAll (fun _ => 7) (terminateAll (fun _ => 9) sampleTable).1 =
      ((terminateAll (fun _ => 9) sampleTable).1, []) :=
  ⟨by decide,
   (exit_terminates_all (fun _ => 9) (fun _ => 7) sampleTable [] 0).2.2.2.2.2.2.2.2⟩

/-! ### One iteration of the command loop -/

theorem signalJob_quiet (jobs : List Job) (a : String) (sig : Signal) (done : Int → Msg)
    (hsig : sig ≠ .SIGKILL) :
    reaps (signalJob jobs a sig done) = [] ∧
      signalled .SIGKILL (signalJob jobs a sig done) = [] ∧
      admitted (signalJob jobs a sig done) = [] := by
  unfold signalJob get_job
  have hsig' : ¬ (sig = .SIGKILL) := hsig
  cases hs : stoi a with
  | error e => cases e <;> simp [reaps, signalled, admitted]
  | ok jobno =>
    simp only
    split_ifs with hlt
    · simp only
      cases jobs[(jobno % 18446744073709551616).toNat]? with
      | none => simp [reaps, signalled, admitted]
      | some job => simp [reaps, signalled, admitted, hsig']
    · simp [reaps, signalled, admitted]

theorem listJobs_quiet (jobs : List Job) :
    reaps (listJobs jobs) = [] ∧ signalled .SIGKILL (listJobs jobs) = [] ∧
      admitted (listJobs jobs) = [] := by
  induction jobs with
  | nil => simp [listJobs, reaps, signalled, admitted]
  | cons j jobs ih =>
    have hc : listJobs (j :: jobs) =
        (if !j.terminated then [.out (.listEntry j.index j.hproc (cmdStr j.cmd))] else []) ++
          listJobs jobs := by
      simp [listJobs, List.flatMap_cons]
    rw [hc]
    unfold reaps signalled admitted at ih ⊢
    rw [List.filterMap_append, List.filterMap_append, List.filterMap_append, ih.1, ih.2.1,
      ih.2.2]
    cases j.terminated <;> simp

theorem runCmd_quiet (cmd : List String) (pid : Int) (hpid : ¬ 0 < pid) :
    reaps (.fork pid :: runCmd cmd) = [] ∧ signalled .SIGKILL (.fork pid :: runCmd cmd) = [] ∧
      admitted (.fork pid :: runCmd cmd) = [] := by
  unfold runCmd
  split <;> simp [reaps, signalled, admitted, hpid]

/-- The four shapes of an iteration: the table is untouched, nothing is killed or reaped and
`terminate` is not called; one job is appended after a successful `fork`; the `terminate`
branch; the `exit` branch. -/
theorem step_cases (jobs : List Job) (inp : Input) :
    ((step jobs inp).jobs = jobs ∧ reaps (step jobs inp).events = [] ∧
      signalled .SIGKILL (step jobs inp).events = [] ∧
      admitted (step jobs inp).events = [] ∧ terminateTargets jobs inp = []) ∨
    (∃ args, inp.cmd = "run" :: args ∧ 0 < inp.fork_result ∧ jobs.length < MAX_JOBS ∧
      (step jobs inp).jobs = jobs ++ [⟨(jobs.length : Int), inp.fork_result, args, false⟩] ∧
      (step jobs inp).events = [.fork inp.fork_result] ∧ (step jobs inp).running = true) ∨
    (∃ a, inp.cmd = ["terminate", a] ∧
      (step jobs inp).jobs = (terminateJob jobs a inp.wait_status).1 ∧
      (step jobs inp).events = (terminateJob jobs a inp.wait_status).2 ∧
      (step jobs inp).running = true) ∨
    (∃ args, inp.cmd = "exit" :: args ∧
      (step jobs inp).jobs = (terminateAll inp.wait_status jobs).1 ∧
      (step jobs inp).events = (terminateAll inp.wait_status jobs).2 ∧
      (step jobs inp).running = false) := by
  unfold step
  cases hcmd : inp.cmd with
  | nil => left; simp [reaps, signalled, admitted, terminateTargets, hcmd]
  | cons c0 args =>
    simp only
    by_cases h1 : c0 = "list"
    · left
      rw [if_pos h1]
      exact ⟨rfl, (listJobs_quiet jobs).1, (listJobs_quiet jobs).2.1, (listJobs_quiet jobs).2.2,
        by simp [terminateTargets, hcmd, h1]⟩
    rw [if_neg h1]
    by_cases h2 : c0 = "run"
    · rw [if_pos h2]
      unfold runJob
      have htt : terminateTargets jobs inp = [] := by simp [terminateTargets, hcmd, h2]
      by_cases hcap : jobs.length < MAX_JOBS
      · rw [if_pos hcap]
        by_cases hneg : inp.fork_result < 0
        · left
          rw [if_pos hneg]
          have hn : ¬ 0 < inp.fork_result := by omega
          simp [reaps, signalled, admitted, htt, hn]
        · rw [if_neg hneg]
          by_cases hpos : inp.fork_result > 0
          · right; left
            rw [if_pos hpos]
            exact ⟨args, by rw [h2], hpos, hcap, rfl, rfl, rfl⟩
          · left
            rw [if_neg hpos]
            have hq := runCmd_quiet args inp.fork_result hpos
            exact ⟨rfl, hq.1, hq.2.1, hq.2.2, htt⟩
      · left; rw [if_neg hcap]; simp [reaps, signalled, admitted, htt]
    rw [if_neg h2]
    by_cases h3 : c0 = "suspend"
    · left
      rw [if_pos h3]
      have htt : terminateTargets jobs inp = [] := by simp [terminateTargets, hcmd, h3]
      split
      · have hq := signalJob_quiet jobs (by assumption) .SIGSTOP .suspended (by decide)
        exact ⟨rfl, hq.1, hq.2.1, hq.2.2, htt⟩
      · simp [reaps, signalled, admitted, htt]
    rw [if_neg h3]
    by_cases h4 : c0 = "resume"
    · left
      rw [if_pos h4]
      have htt : terminateTargets jobs inp = [] := by simp [terminateTargets, hcmd, h4]
      split
      · have hq := signalJob_quiet jobs (by assumption) .SIGCONT .resumed (by decide)
        exact ⟨rfl, hq.1, hq.2.1, hq.2.2, htt⟩
      · simp [reaps, signalled, admitted, htt]
    rw [if_neg h4]
    by_cases h5 : c0 = "terminate"
    · rw [if_pos h5]
      split
      · next a =>
        right; right; left
        exact ⟨a, by rw [h5], rfl, rfl, rfl⟩
      · next hargs =>
        left
        refine ⟨rfl, by simp [reaps], by simp [signalled], by simp [admitted], ?_⟩
        unfold terminateTargets
        rw [hcmd]
        simp only [h5, if_true]
    rw [if_neg h5]
    have htt : c0 ≠ "exit" → terminateTargets jobs inp = [] := by
      intro h6
      simp [terminateTargets, hcmd, h5, h6]
    by_cases h6 : c0 = "exit"
    · rw [if_pos h6]
      right; right; right
      exact ⟨args, by rw [h6], rfl, rfl, rfl⟩
    rw [if_neg h6]
    by_cases h7 : c0 = "quit"
    · left; rw [if_pos h7]; simp [reaps, signalled, admitted, htt h6]
    · left; rw [if_neg h7]; simp [reaps, signalled, admitted, htt h6]

/-! ### The table only grows -/

theorem Job.evolves_refl (j : Job) : Job.evolves j j :=
  ⟨rfl, rfl, rfl, fun h => h⟩

theorem Job.evolves_trans {a b c : Job} (h1 : Job.evolves a b) (h2 : Job.evolves b c) :
    Job.evolves a c :=
  ⟨h2.1.trans h1.1, h2.2.1.trans h1.2.1, h2.2.2.1.trans h1.2.2.1,
    fun h => h2.2.2.2 (h1.2.2.2 h)⟩

theorem Job.evolves_terminate (wstatus : Int) (j : Job) :
    Job.evolves j (terminate wstatus j).1 := by
  rw [terminate_fst]
  exact ⟨rfl, rfl, rfl, fun _ => rfl⟩

theorem evolves_same (jobs : List Job) : List.Forall₂ Job.evolves jobs jobs := by
  induction jobs with
  | nil => exact List.Forall₂.nil
  | cons j jobs ih => exact List.Forall₂.cons (Job.evolves_refl j) ih

theorem evolves_set (jobs : List Job) (pos : Nat) (j j2 : Job) (hj : jobs[pos]? = some j)
    (he : Job.evolves j j2) : List.Forall₂ Job.evolves jobs (jobs.set pos j2) := by
  induction jobs generalizing pos with
  | nil => simp at hj
  | cons x jobs ih =>
    cases pos with
    | zero =>
      simp at hj
      subst hj
      exact List.Forall₂.cons he (evolves_same jobs)
    | succ pos =>
      simp at hj
      exact List.Forall₂.cons (Job.evolves_refl x) (ih pos hj)

theorem evolves_terminateJob (jobs : List Job) (a : String) (ws : Int → Int) :
    List.Forall₂ Job.evolves jobs (terminateJob jobs a ws).1 := by
  unfold terminateJob
  cases hg : get_job jobs a with
  | mk found evs =>
    cases found with
    | none => exact evolves_same jobs
    | some pos =>
      simp only
      cases hj : jobs[pos]? with
      | none => exact evolves_same jobs
      | some job => exact evolves_set jobs pos job _ hj (Job.evolves_terminate _ job)

theorem evolves_terminateAll (jobs : List Job) (ws : Int → Int) :
    List.Forall₂ Job.evolves jobs (terminateAll ws jobs).1 := by
  induction jobs with
  | nil => exact List.Forall₂.nil
  | cons j jobs ih => exact List.Forall₂.cons (Job.evolves_terminate _ j) ih

theorem step_append_only (jobs : List Job) (inp : Input) :
    ∃ kept extra, (step jobs inp).jobs = kept ++ extra ∧
      List.Forall₂ Job.evolves jobs kept ∧ extra.length ≤ 1 ∧
      ∀ j ∈ extra, j.terminated = false := by
  rcases step_cases jobs inp with h | ⟨args, _, _, _, h, _⟩ | ⟨a, _, h, _⟩ | ⟨args, _, h, _⟩
  · exact ⟨jobs, [], by rw [h.1, List.append_nil], evolves_same jobs, by simp, by simp⟩
  · refine ⟨jobs, _, h, evolves_same jobs, by simp, ?_⟩
    intro j hj
    rw [List.mem_singleton] at hj
    rw [hj]
  · exact ⟨_, [], by rw [h, List.append_nil], evolves_terminateJob jobs a _, by simp, by simp⟩
  · exact ⟨_, [], by rw [h, List.append_nil], evolves_terminateAll jobs _, by simp, by simp⟩

/-- C8: one iteration of the command loop, from any table and on any input, leaves a table
that is the old one, entry for entry in the same order with handle, head process and command
unchanged and no `terminated` flag reset, followed by at most one new entry, whose flag
is false. -/
theorem table_append_only (jobs : List Job) (inp : Input) :
    ∃ kept extra, (step jobs inp).jobs = kept ++ extra ∧
      List.Forall₂ Job.evolves jobs kept ∧ extra.length ≤ 1 ∧
      ∀ j ∈ extra, j.terminated = false :=
  step_append_only jobs inp

/-- C8 on the sample table: a `run` appends one entry with the flag unset, a `terminate 1`
keeps both entries and sets one flag. -/
theorem table_append_only_witness :
    (step sampleTable ⟨["run", "ls"], 103, fun _ => 0⟩).jobs =
      sampleTable ++ [⟨2, 103, ["ls"], false⟩] ∧
    (step sampleTable ⟨["terminate", "1"], 0, fun _ => 0⟩).jobs =
      [⟨0, 101, ["sleep", "100"], true⟩, ⟨1, 102, ["xclock"], true⟩] ∧
    ∃ kept extra, (step sampleTable ⟨["run", "ls"], 103, fun _ => 0⟩).jobs = kept ++ extra ∧
      List.Forall₂ Job.evolves sampleTable kept ∧ extra.length ≤ 1 ∧
      ∀ j ∈ extra, j.terminated = false :=
  ⟨by decide, by decide, table_append_only sampleTable ⟨["run", "ls"], 103, fun _ => 0⟩⟩

/-! ### Sessions -/

theorem session_invariant (P : Session → Prop)
    (hstep : ∀ (s : Session) (inp : Input), s.running = true → P s →
      P ⟨(step s.jobs inp).jobs, s.trace ++ (step s.jobs inp).events,
        (step s.jobs inp).running⟩) :
    ∀ (inps : List Input) (s : Session), P s → P (session s inps) := by
  intro inps
  induction inps with
  | nil => intro s hs; exact hs
  | cons inp rest ih =>
    intro s hs
    unfold session
    by_cases hr : s.running = true
    · rw [if_pos hr]
      exact ih _ (hstep s inp hr hs)
    · rw [if_neg hr]
      exact hs

theorem forall₂_getElem? {R : Job → Job → Prop} {l l2 : List Job} (h : List.Forall₂ R l l2)
    (k : Nat) (x : Job) (hx : l[k]? = some x) : ∃ y, l2[k]? = some y ∧ R x y := by
  induction h generalizing k with
  | nil => simp at hx
  | cons hab _ ih =>
    cases k with
    | zero =>
      simp at hx
      subst hx
      exact ⟨_, by simp, hab⟩
    | succ k =>
      simp at hx
      obtain ⟨y, hy, hr⟩ := ih k hx
      exact ⟨y, by simpa using hy, hr⟩

theorem step_grows (jobs : List Job) (inp : Input) (k : Nat) (job : Job)
    (h : jobs[k]? = some job) :
    ∃ job2, (step jobs inp).jobs[k]? = some job2 ∧ Job.evolves job job2 := by
  obtain ⟨kept, extra, hj, hev, _, _⟩ := step_append_only jobs inp
  obtain ⟨y, hy, hr⟩ := forall₂_getElem? hev k job h
  refine ⟨y, ?_, hr⟩
  rw [hj, List.getElem?_append_left (by
    have := List.getElem?_eq_some.mp hy
    exact this.1)]
  exact hy

theorem session_grows (more : List Input) :
    ∀ (s : Session) (k : Nat) (job : Job), s.jobs[k]? = some job →
      ∃ job2, (session s more).jobs[k]? = some job2 ∧ Job.evolves job job2 := by
  induction more with
  | nil => intro s k job h; exact ⟨job, h, Job.evolves_refl job⟩
  | cons inp rest ih =>
    intro s k job h
    unfold session
    by_cases hr : s.running = true
    · rw [if_pos hr]
      obtain ⟨j1, h1, e1⟩ := step_grows s.jobs inp k job h
      obtain ⟨j2, h2, e2⟩ := ih ⟨(step s.jobs inp).jobs, s.trace ++ (step s.jobs inp).events,
        (step s.jobs inp).running⟩ k j1 h1
      exact ⟨j2, h2, Job.evolves_trans e1 e2⟩
    · rw [if_neg hr]
      exact ⟨job, h, Job.evolves_refl job⟩

theorem forall₂_evolves_length {l l2 : List Job} (h : List.Forall₂ Job.evolves l l2) :
    l2.length = l.length := h.length_eq.symm

theorem forall₂_evolves_hproc {l l2 : List Job} (h : List.Forall₂ Job.evolves l l2) :
    l2.map Job.hproc = l.map Job.hproc := by
  induction h with
  | nil => rfl
  | cons hab _ ih => simp [hab.2.1, ih]

theorem forall₂_evolves_index {l l2 : List Job} (h : List.Forall₂ Job.evolves l l2)
    (hidx : ∀ (k : Nat) (job : Job), l[k]? = some job → job.index = (k : Int)) :
    ∀ (k : Nat) (job : Job), l2[k]? = some job → job.index = (k : Int) := by
  intro k job hk
  have hlt : k < l.length := by
    rw [← forall₂_evolves_length h]
    exact (List.getElem?_eq_some.mp hk).1
  obtain ⟨y, hy, hr⟩ := forall₂_getElem? h k l[k] (List.getElem?_eq_getElem hlt)
  rw [hk] at hy
  injection hy with hy
  subst hy
  rw [hr.1]
  exact hidx k _ (List.getElem?_eq_getElem hlt)

theorem step_index (jobs : List Job) (inp : Input)
    (hidx : ∀ (k : Nat) (job : Job), jobs[k]? = some job → job.index = (k : Int)) :
    ∀ (k : Nat) (job : Job), (step jobs inp).jobs[k]? = some job → job.index = (k : Int) := by
  rcases step_cases jobs inp with h | ⟨args, _, _, _, h, _⟩ | ⟨a, _, h, _⟩ | ⟨args, _, h, _⟩
  · rw [h.1]; exact hidx
  · rw [h]
    intro k job hk
    by_cases hlt : k < jobs.length
    · rw [List.getElem?_append_left hlt] at hk
      exact hidx k job hk
    · rw [List.getElem?_append_right (by omega)] at hk
      have hk0 : k - jobs.length = 0 := by
        by_contra hne
        obtain ⟨n, hn⟩ := Nat.exists_eq_succ_of_ne_zero hne
        rw [hn] at hk
        simp at hk
      rw [hk0] at hk
      simp at hk
      subst hk
      show (jobs.length : Int) = (k : Int)
      omega
  · rw [h]; exact forall₂_evolves_index (evolves_terminateJob jobs a _) hidx
  · rw [h]; exact forall₂_evolves_index (evolves_terminateAll jobs _) hidx

theorem step_length (jobs : List Job) (inp : Input) (hlen : jobs.length ≤ MAX_JOBS) :
    (step jobs inp).jobs.length ≤ MAX_JOBS := by
  rcases step_cases jobs inp with h | ⟨args, _, _, hcap, h, _⟩ | ⟨a, _, h, _⟩ | ⟨args, _, h, _⟩
  · rw [h.1]; exact hlen
  · rw [h, List.length_append]
    simp only [List.length_singleton]
    omega
  · rw [h, forall₂_evolves_length (evolves_terminateJob jobs a _)]; exact hlen
  · rw [h, forall₂_evolves_length (evolves_terminateAll jobs _)]; exact hlen

theorem session_index (inputs : List Input) :
    ∀ (k : Nat) (job : Job), (session Session.init inputs).jobs[k]? = some job →
      job.index = (k : Int) :=
  session_invariant
    (fun s => ∀ (k : Nat) (job : Job), s.jobs[k]? = some job → job.index = (k : Int))
    (fun s inp _ hs => step_index s.jobs inp hs) inputs Session.init
    (by intro k job h; simp [Session.init] at h)

theorem session_length (inputs : List Input) :
    (session Session.init inputs).jobs.length ≤ MAX_JOBS :=
  session_invariant (fun s => s.jobs.length ≤ MAX_JOBS)
    (fun s inp _ hs => step_length s.jobs inp hs) inputs Session.init
    (by simp [Session.init])

/-! ### `get_job` and the `terminate` branch -/

theorem get_job_cases (jobs : List Job) (a : String) :
    (∃ pos, pos < jobs.length ∧ get_job jobs a = (some pos, [])) ∨
    (∃ m, get_job jobs a = (none, [.out m])) := by
  unfold get_job
  cases hs : stoi a with
  | error e => cases e <;> exact Or.inr ⟨_, rfl⟩
  | ok jobno =>
    simp only
    split_ifs with hlt
    · exact Or.inl ⟨_, hlt, rfl⟩
    · exact Or.inr ⟨_, rfl⟩

theorem stoi_toString_small (k : Nat) (h : k < 32) : stoi (toString k) = .ok (k : Int) := by
  interval_cases k <;> decide

theorem get_job_toString (jobs : List Job) (k : Nat) (hk : k < jobs.length) (h32 : k < 32) :
    get_job jobs (toString k) = (some k, []) := by
  unfold get_job
  rw [stoi_toString_small k h32]
  have hmod : ((k : Int) % 18446744073709551616).toNat = k := by omega
  simp only [hmod, if_pos hk]

theorem terminateJob_cases (jobs : List Job) (a : String) (ws : Int → Int) :
    (∃ pos job, get_job jobs a = (some pos, []) ∧ jobs[pos]? = some job ∧
      terminateJob jobs a ws =
        (jobs.set pos (terminate (ws job.hproc) job).1, (terminate (ws job.hproc) job).2.2)) ∨
    (∃ m, get_job jobs a = (none, [.out m]) ∧ terminateJob jobs a ws = (jobs, [.out m])) := by
  rcases get_job_cases jobs a with ⟨pos, hpos, hg⟩ | ⟨m, hg⟩
  · left
    refine ⟨pos, jobs[pos], hg, List.getElem?_eq_getElem hpos, ?_⟩
    unfold terminateJob
    rw [hg]
    simp only [List.getElem?_eq_getElem hpos, List.nil_append]
  · right
    refine ⟨m, hg, ?_⟩
    unfold terminateJob
    rw [hg]

theorem admitted_append (a b : List Event) : admitted (a ++ b) = admitted a ++ admitted b := by
  simp [admitted, List.filterMap_append]

theorem admitted_terminate (wstatus : Int) (job : Job) :
    admitted (terminate wstatus job).2.2 = [] := by
  rw [terminate_events]
  split <;> simp [admitted]

theorem kill_eq_reap_terminate (wstatus : Int) (job : Job) :
    signalled .SIGKILL (terminate wstatus job).2.2 = reaps (terminate wstatus job).2.2 := by
  rw [terminate_events]
  split <;> simp [signalled, reaps]

theorem admitted_terminateJob (jobs : List Job) (a : String) (ws : Int → Int) :
    admitted (terminateJob jobs a ws).2 = [] := by
  rcases terminateJob_cases jobs a ws with ⟨pos, job, _, _, h⟩ | ⟨m, _, h⟩
  · rw [h]; exact admitted_terminate _ job
  · rw [h]; simp [admitted]

theorem admitted_terminateAll (ws : Int → Int) (jobs : List Job) :
    admitted (terminateAll ws jobs).2 = [] := by
  induction jobs with
  | nil => simp [terminateAll, admitted]
  | cons j jobs ih =>
    have hc : (terminateAll ws (j :: jobs)).2 =
        (terminate (ws j.hproc) j).2.2 ++ (terminateAll ws jobs).2 := rfl
    rw [hc, admitted_append, ih, admitted_terminate]
    rfl

theorem step_admitted (jobs : List Job) (inp : Input) :
    (step jobs inp).jobs.map Job.hproc = jobs.map Job.hproc ++ admitted (step jobs inp).events := by
  rcases step_cases jobs inp with h | ⟨args, _, hpos, _, h, he, _⟩ | ⟨a, _, h, he, _⟩ |
    ⟨args, _, h, he, _⟩
  · rw [h.1, h.2.2.2.1, List.append_nil]
  · rw [h, he]
    simp [admitted, hpos]
  · rw [h, he, admitted_terminateJob, List.append_nil,
      forall₂_evolves_hproc (evolves_terminateJob jobs a _)]
  · rw [h, he, admitted_terminateAll, List.append_nil,
      forall₂_evolves_hproc (evolves_terminateAll jobs _)]

theorem session_admitted (inputs : List Input) :
    admitted (session Session.init inputs).trace =
      (session Session.init inputs).jobs.map Job.hproc :=
  session_invariant (fun s => admitted s.trace = s.jobs.map Job.hproc)
    (fun s inp _ hs => by
      show admitted (s.trace ++ (step s.jobs inp).events) = (step s.jobs inp).jobs.map Job.hproc
      rw [admitted_append, hs, step_admitted])
    inputs Session.init (by simp [Session.init, admitted])

/-- C3: in every state reached from the start of `main`, the job at table position `k` has
handle `k`; a `run` that is admitted appends its job at the end of the table with the table
length as handle, and the table length is the number of jobs admitted so far, so the `k`-th
admitted job (from 0) gets handle `k`; and after any further commands `get_job` on the
decimal string of `k` returns position `k`, where the job still has handle `k` and the
head process and command it was registered with. -/
theorem handles_stable (inputs more : List Input) :
    (∀ (k : Nat) (job : Job), (session Session.init inputs).jobs[k]? = some job →
      job.index = (k : Int)) ∧
    (admitted (session Session.init inputs).trace).length =
      (session Session.init inputs).jobs.length ∧
    (∀ (args : List String) (fk : Int) (ws : Int → Int),
      (session Session.init inputs).jobs.length < MAX_JOBS → 0 < fk →
      (step (session Session.init inputs).jobs ⟨"run" :: args, fk, ws⟩).jobs =
        (session Session.init inputs).jobs ++
          [⟨((session Session.init inputs).jobs.length : Int), fk, args, false⟩]) ∧
    (∀ (k : Nat) (job : Job), (session Session.init inputs).jobs[k]? = some job →
      ∃ job2, get_job (session (session Session.init inputs) more).jobs (toString k) =
          (some k, []) ∧
        (session (session Session.init inputs) more).jobs[k]? = some job2 ∧
        job2.index = (k : Int) ∧ job2.hproc = job.hproc ∧ job2.cmd = job.cmd) := by
  refine ⟨session_index inputs, ?_, ?_, ?_⟩
  · rw [session_admitted, List.length_map]
  · intro args fk ws hcap hfk
    have hneg : ¬ fk < 0 := by omega
    simp [step, runJob, hcap, hfk, hneg]
  · intro k job hk
    obtain ⟨job2, h2, hev⟩ := session_grows more (session Session.init inputs) k job hk
    have hklt : k < (session Session.init inputs).jobs.length :=
      (List.getElem?_eq_some.mp hk).1
    have hk32 : k < 32 := lt_of_lt_of_le hklt (session_length inputs)
    have hk2 : k < (session (session Session.init inputs) more).jobs.length :=
      (List.getElem?_eq_some.mp h2).1
    refine ⟨job2, get_job_toString _ k hk2 hk32, h2, ?_, hev.2.1, hev.2.2.1⟩
    rw [hev.1]
    exact session_index inputs k job hk

/-- C3 on the sample session: after the two `run` commands job 1 is at position 1, and after
the rest of the session (`terminate 0`, `list`, `terminate 0`, `exit`) the string `1` still
resolves to position 1 with the same head process and command. -/
theorem handles_stable_witness :
    (session Session.init (sampleSession.take 2)).jobs =
      [⟨0, 101, ["sleep", "100"], false⟩, ⟨1, 102, ["xclock"], false⟩] ∧
    ∃ job2, get_job (session (session Session.init (sampleSession.take 2))
          (sampleSession.drop 2)).jobs (toString 1) = (some 1, []) ∧
        (session (session Session.init (sampleSession.take 2))
          (sampleSession.drop 2)).jobs[1]? = some job2 ∧
        job2.index = ((1 : Nat) : Int) ∧
        job2.hproc = (⟨1, 102, ["xclock"], false⟩ : Job).hproc ∧
        job2.cmd = (⟨1, 102, ["xclock"], false⟩ : Job).cmd :=
  ⟨by decide,
   (handles_stable (sampleSession.take 2) (sampleSession.drop 2)).2.2.2 1
     ⟨1, 102, ["xclock"], false⟩ (by decide)⟩

/-! ### Capacity -/

theorem session_stopped (s : Session) (inps : List Input) (h : s.running = false) :
    session s inps = s := by
  cases inps with
  | nil => rfl
  | cons inp rest => simp [session, h]

theorem session_cons (s : Session) (inp : Input) (rest : List Input) :
    session s (inp :: rest) =
      if s.running = true then
        session ⟨(step s.jobs inp).jobs, s.trace ++ (step s.jobs inp).events,
          (step s.jobs inp).running⟩ rest
      else s := rfl

theorem session_append (a b : List Input) :
    ∀ s : Session, session s (a ++ b) = session (session s a) b := by
  induction a with
  | nil => intro s; rfl
  | cons inp rest ih =>
    intro s
    rw [List.cons_append, session_cons, session_cons]
    by_cases hr : s.running = true
    · rw [if_pos hr, if_pos hr]
      exact ih _
    · rw [if_neg hr, if_neg hr]
      exact (session_stopped s b (by simpa using hr)).symm

/-- C4: `MAX_JOBS` is 32; in every state reached from the start of `main` the table has at
most 32 entries and its length is the number of jobs admitted so far, terminated or not;
once 32 jobs have been admitted the table keeps 32 entries whatever commands follow, and
every `run` then leaves the table as it is, with the admission error as its only event (no
`fork`) and the loop continuing. -/
theorem admission_capacity (inputs more : List Input) :
    MAX_JOBS = 32 ∧
    (session Session.init inputs).jobs.length ≤ 32 ∧
    (admitted (session Session.init inputs).trace).length =
      (session Session.init inputs).jobs.length ∧
    ((admitted (session Session.init inputs).trace).length = 32 →
      (session (session Session.init inputs) more).jobs.length = 32 ∧
      ∀ (args : List String) (fk : Int) (ws : Int → Int),
        step (session (session Session.init inputs) more).jobs ⟨"run" :: args, fk, ws⟩ =
          ⟨(session (session Session.init inputs) more).jobs, [.out .admissionError], true⟩) := by
  have hadm : (admitted (session Session.init inputs).trace).length =
      (session Session.init inputs).jobs.length := by
    rw [session_admitted, List.length_map]
  refine ⟨rfl, session_length inputs, hadm, ?_⟩
  intro hfull
  rw [hadm] at hfull
  have hle : (session (session Session.init inputs) more).jobs.length ≤ 32 := by
    rw [← session_append]
    exact session_length (inputs ++ more)
  have hge : 32 ≤ (session (session Session.init inputs) more).jobs.length := by
    obtain ⟨job2, h2, _⟩ := session_grows more (session Session.init inputs) 31
      ((session Session.init inputs).jobs[31]) (List.getElem?_eq_getElem (by omega))
    have := (List.getElem?_eq_some.mp h2).1
    omega
  have heq : (session (session Session.init inputs) more).jobs.length = 32 := by omega
  refine ⟨heq, ?_⟩
  intro args fk ws
  simp [step, runJob, heq, MAX_JOBS]

set_option maxRecDepth 100000 in
/-- C4 on a session of 33 `run` commands: 32 jobs are admitted, the last event is the
admission error, and every further `run` is rejected. -/
theorem admission_capacity_witness :
    (admitted (session Session.init fullSession).trace).length = 32 ∧
    (session Session.init fullSession).trace.getLast? = some (.out .admissionError) ∧
    (session (session Session.init fullSession) []).jobs.length = 32 ∧
    ∀ (args : List String) (fk : Int) (ws : Int → Int),
      step (session (session Session.init fullSession) []).jobs ⟨"run" :: args, fk, ws⟩ =
        ⟨(session (session Session.init fullSession) []).jobs, [.out .admissionError], true⟩ :=
  ⟨by decide, by decide, (admission_capacity fullSession []).2.2.2 (by decide)⟩

/-! ### `list` -/

theorem listJobs_eq (jobs : List Job) :
    listJobs jobs =
      (jobs.filter (fun j => !j.terminated)).map
        (fun j => .out (.listEntry j.index j.hproc (cmdStr j.cmd))) := by
  induction jobs with
  | nil => rfl
  | cons j jobs ih =>
    have hc : listJobs (j :: jobs) =
        (if !j.terminated then [.out (.listEntry j.index j.hproc (cmdStr j.cmd))] else []) ++
          listJobs jobs := by
      simp [listJobs, List.flatMap_cons]
    rw [hc, ih]
    cases h : j.terminated <;> simp [List.filter_cons, h]

theorem out_quiet (ms : List Msg) (sig : Signal) :
    signalled sig (ms.map Event.out) = [] ∧ reaps (ms.map Event.out) = [] := by
  induction ms with
  | nil => simp [signalled, reaps]
  | cons m ms ih =>
    unfold signalled reaps at ih ⊢
    simp only [List.map_cons, List.filterMap_cons, ih.1, ih.2, and_self]

theorem index_pairwise (jobs : List Job)
    (hidx : ∀ (k : Nat) (job : Job), jobs[k]? = some job → job.index = (k : Int)) :
    jobs.Pairwise (fun a b => a.index < b.index) := by
  rw [List.pairwise_iff_getElem]
  intro i j hi hj hij
  rw [hidx i _ (List.getElem?_eq_getElem hi), hidx j _ (List.getElem?_eq_getElem hj)]
  omega

/-- C7: from any table, `list` leaves the table as it is and goes on; its events are one
line per job whose `terminated` flag is false, with the handle, head process and command of
the job, in table order, and nothing else, so no signal is sent and nothing is reaped. In
every table reached from the start of `main` the handles of the listed jobs are strictly
ascending. A `suspend` leaves the table as it is, so a suspended job that was listed is
still listed. -/
theorem list_is_filtered_view (jobs : List Job) (inputs : List Input) (args : List String)
    (fk : Int) (ws : Int → Int) (a : String) :
    step jobs ⟨"list" :: args, fk, ws⟩ =
      ⟨jobs,
        (jobs.filter (fun j => !j.terminated)).map
          (fun j => .out (.listEntry j.index j.hproc (cmdStr j.cmd))), true⟩ ∧
    (∀ sig, signalled sig (step jobs ⟨"list" :: args, fk, ws⟩).events = []) ∧
    reaps (step jobs ⟨"list" :: args, fk, ws⟩).events = [] ∧
    (((session Session.init inputs).jobs.filter (fun j => !j.terminated)).map
      Job.index).Pairwise (fun x y => x < y) ∧
    (step jobs ⟨["suspend", a], fk, ws⟩).jobs = jobs ∧
    (step (step jobs ⟨["suspend", a], fk, ws⟩).jobs ⟨"list" :: args, fk, ws⟩).events =
      (step jobs ⟨"list" :: args, fk, ws⟩).events := by
  have hstep : step jobs ⟨"list" :: args, fk, ws⟩ =
      ⟨jobs,
        (jobs.filter (fun j => !j.terminated)).map
          (fun j => .out (.listEntry j.index j.hproc (cmdStr j.cmd))), true⟩ := by
    simp [step, listJobs_eq]
  have hsus : (step jobs ⟨["suspend", a], fk, ws⟩).jobs = jobs := by
    simp [step]
  have hquiet := fun sig => out_quiet
    ((jobs.filter (fun j => !j.terminated)).map
      (fun j => Msg.listEntry j.index j.hproc (cmdStr j.cmd))) sig
  simp only [List.map_map] at hquiet
  refine ⟨hstep, ?_, ?_, ?_, hsus, by rw [hsus]⟩
  · intro sig
    rw [hstep]
    exact (hquiet sig).1
  · rw [hstep]
    exact (hquiet .SIGKILL).2
  · rw [List.pairwise_map]
    exact (index_pairwise _ (session_index inputs)).filter _

/-- C7 on the sample table: `list` prints job 1 only and leaves the table as it is. -/
theorem list_is_filtered_view_witness :
    (step sampleTable ⟨["list"], 0, fun _ => 0⟩).events =
      [.out (.listEntry 1 102 "xclock ")] ∧
    step sampleTable ⟨"list" :: [], 0, fun _ => 0⟩ =
      ⟨sampleTable,
        (sampleTable.filter (fun j => !j.terminated)).map
          (fun j => .out (.listEntry j.index j.hproc (cmdStr j.cmd))), true⟩ :=
  ⟨by decide, (list_is_filtered_view sampleTable [] [] 0 (fun _ => 0) "1").1⟩

/-! ### Kills and reaps of a session -/

theorem set_self (jobs : List Job) (pos : Nat) (job : Job) (h : jobs[pos]? = some job) :
    jobs.set pos job = jobs := by
  induction jobs generalizing pos with
  | nil => rfl
  | cons x jobs ih =>
    cases pos with
    | zero =>
      simp at h
      simp [h]
    | succ pos =>
      simp at h
      simp [ih pos h]

theorem filter_set_perm (p : Job → Bool) (jobs : List Job) (pos : Nat) (j j2 : Job)
    (h : jobs[pos]? = some j) (hj : p j = false) (hj2 : p j2 = true) :
    List.Perm ((jobs.set pos j2).filter p) (j2 :: jobs.filter p) := by
  induction jobs generalizing pos with
  | nil => simp at h
  | cons x jobs ih =>
    cases pos with
    | zero =>
      simp at h
      subst h
      simp [List.filter_cons, hj, hj2]
    | succ pos =>
      simp at h
      have ih' := ih pos h
      rw [List.set_cons_succ, List.filter_cons, List.filter_cons]
      cases hx : p x
      · simpa using ih'
      · simp only [if_true]
        exact (List.Perm.cons x ih').trans (List.Perm.swap j2 x _)

theorem kill_eq_reap_terminateAll (ws : Int → Int) (jobs : List Job) :
    signalled .SIGKILL (terminateAll ws jobs).2 = reaps (terminateAll ws jobs).2 := by
  rw [terminateAll_events_live, signalled_live, reaps_live, if_pos rfl]

theorem step_kill_eq_reap (jobs : List Job) (inp : Input) :
    signalled .SIGKILL (step jobs inp).events = reaps (step jobs inp).events := by
  rcases step_cases jobs inp with h | ⟨args, _, _, _, _, he, _⟩ | ⟨a, _, _, he, _⟩ |
    ⟨args, _, _, he, _⟩
  · rw [h.2.1, h.2.2.1]
  · rw [he]; simp [signalled, reaps]
  · rw [he]
    rcases terminateJob_cases jobs a inp.wait_status with ⟨pos, job, _, _, h⟩ | ⟨m, _, h⟩
    · rw [h]; exact kill_eq_reap_terminate _ job
    · rw [h]; simp [signalled, reaps]
  · rw [he]; exact kill_eq_reap_terminateAll _ jobs

theorem hproc_all_terminated (jobs : List Job) :
    ((jobs.map (fun j : Job => { j with terminated := true })).filter
      (fun j => j.terminated)).map Job.hproc = jobs.map Job.hproc := by
  induction jobs with
  | nil => rfl
  | cons x xs ih => simp [List.filter_cons, ih]

theorem step_reaps_perm (jobs : List Job) (inp : Input) :
    List.Perm ((jobs.filter (fun j => j.terminated)).map Job.hproc ++
        reaps (step jobs inp).events)
      (((step jobs inp).jobs.filter (fun j => j.terminated)).map Job.hproc) := by
  rcases step_cases jobs inp with h | ⟨args, _, _, _, h, he, _⟩ | ⟨a, _, h, he, _⟩ |
    ⟨args, _, h, he, _⟩
  · rw [h.1, h.2.1, List.append_nil]
  · rw [h, he]
    simp [reaps, List.filter_append]
  · rw [h, he]
    rcases terminateJob_cases jobs a inp.wait_status with ⟨pos, job, _, hjob, ht⟩ | ⟨m, _, ht⟩
    · rw [ht]
      simp only
      cases hterm : job.terminated
      · rw [terminate_live _ job hterm]
        simp only [reaps, List.filterMap_cons, List.filterMap_nil]
        have hp := filter_set_perm (fun j => j.terminated) jobs pos job
          { job with terminated := true } hjob hterm rfl
        have hm := hp.map Job.hproc
        rw [List.map_cons] at hm
        exact (List.perm_append_comm.trans (by simp)).trans hm.symm
      · rw [terminate_dead _ job hterm, set_self jobs pos job hjob]
        simp [reaps]
    · rw [ht]
      simp [reaps]
  · rw [he, terminateAll_events_live, reaps_live]
    have hj : (terminateAll inp.wait_status jobs).1 =
        jobs.map (fun j => { j with terminated := true }) := by
      rw [terminateAll_jobs]
      exact List.map_congr_left (fun j _ => terminate_fst _ j)
    rw [h, hj, hproc_all_terminated]
    have hperm := (List.filter_append_perm (fun j : Job => j.terminated) jobs).map Job.hproc
    rw [List.map_append] at hperm
    have hneg : (fun j : Job => !j.terminated) = (fun x => !(fun j : Job => j.terminated) x) := rfl
    rw [hneg]
    exact hperm

theorem terminateTargets_lt (jobs : List Job) (inp : Input) (k : Nat)
    (h : k ∈ terminateTargets jobs inp) : k < jobs.length := by
  rcases step_cases jobs inp with hc | ⟨args, hcmd, _⟩ | ⟨a, hcmd, _⟩ | ⟨args, hcmd, _⟩
  · rw [hc.2.2.2.2] at h
    simp at h
  · simp [terminateTargets, hcmd] at h
  · rcases get_job_cases jobs a with ⟨pos, hpos, hg⟩ | ⟨m, hg⟩
    · simp [terminateTargets, hcmd, hg] at h
      omega
    · simp [terminateTargets, hcmd, hg] at h
  · simp [terminateTargets, hcmd] at h
    exact h

theorem step_flag (jobs : List Job) (inp : Input) (k : Nat) (job2 : Job)
    (h2 : (step jobs inp).jobs[k]? = some job2) :
    job2.terminated = true ↔
      (∃ job, jobs[k]? = some job ∧ job.terminated = true) ∨ k ∈ terminateTargets jobs inp := by
  rcases step_cases jobs inp with hc | ⟨args, hcmd, _, _, hj, _⟩ | ⟨a, hcmd, hj, _⟩ |
    ⟨args, hcmd, hj, _⟩
  · rw [hc.1] at h2
    rw [hc.2.2.2.2]
    simp [h2]
  · have htt : terminateTargets jobs inp = [] := by simp [terminateTargets, hcmd]
    rw [htt]
    rw [hj] at h2
    by_cases hlt : k < jobs.length
    · rw [List.getElem?_append_left hlt] at h2
      simp [h2]
    · rw [List.getElem?_append_right (by omega)] at h2
      have hnone : jobs[k]? = none := List.getElem?_eq_none (by omega)
      have hk0 : k - jobs.length = 0 := by
        by_contra hne
        obtain ⟨n, hn⟩ := Nat.exists_eq_succ_of_ne_zero hne
        rw [hn] at h2
        simp at h2
      rw [hk0] at h2
      simp at h2
      subst h2
      simp [hnone]
  · rw [hj] at h2
    rcases terminateJob_cases jobs a inp.wait_status with ⟨pos, job, hg, hjob, ht⟩ | ⟨m, hg, ht⟩
    · have htt : terminateTargets jobs inp = [pos] := by simp [terminateTargets, hcmd, hg]
      rw [htt]
      rw [ht] at h2
      simp only at h2
      by_cases hk : pos = k
      · subst hk
        have hlt : pos < jobs.length := (List.getElem?_eq_some.mp hjob).1
        rw [List.getElem?_set_self hlt] at h2
        injection h2 with h2
        subst h2
        rw [terminate_fst]
        simp
      · rw [List.getElem?_set_ne hk] at h2
        have hk' : ¬ k = pos := fun h => hk h.symm
        simp [h2, hk']
    · have htt : terminateTargets jobs inp = [] := by simp [terminateTargets, hcmd, hg]
      rw [htt]
      rw [ht] at h2
      simp [h2]
  · have htt : terminateTargets jobs inp = List.range jobs.length := by
      simp [terminateTargets, hcmd]
    rw [htt]
    rw [hj, terminateAll_jobs] at h2
    rw [List.getElem?_map] at h2
    cases hjk : jobs[k]? with
    | none => rw [hjk] at h2; simp at h2
    | some job =>
      rw [hjk] at h2
      simp only [Option.map_some'] at h2
      injection h2 with h2
      subst h2
      rw [terminate_fst]
      have hlt : k < jobs.length := (List.getElem?_eq_some.mp hjk).1
      simp [hlt]

theorem session_flag (inputs : List Input) :
    ∀ (s : Session) (k : Nat) (job2 : Job), (session s inputs).jobs[k]? = some job2 →
      (job2.terminated = true ↔
        (∃ job, s.jobs[k]? = some job ∧ job.terminated = true) ∨
          terminateCalled s inputs k = true) := by
  induction inputs with
  | nil =>
    intro s k job2 h2
    have h2' : s.jobs[k]? = some job2 := h2
    simp [terminateCalled, h2']
  | cons inp rest ih =>
    intro s k job2 h2
    rw [session_cons] at h2
    unfold terminateCalled
    by_cases hr : s.running = true
    · rw [if_pos hr] at h2
      rw [ih _ k job2 h2]
      simp only [hr, Bool.true_and, Bool.or_eq_true, decide_eq_true_eq]
      constructor
      · rintro (⟨j1, hj1, ht1⟩ | hc)
        · rcases (step_flag s.jobs inp k j1 hj1).mp ht1 with h | h
          · exact Or.inl h
          · exact Or.inr (Or.inl h)
        · exact Or.inr (Or.inr hc)
      · rintro (⟨j0, hj0, ht0⟩ | hin | hc)
        · obtain ⟨j1, hj1, hev⟩ := step_grows s.jobs inp k j0 hj0
          exact Or.inl ⟨j1, hj1, hev.2.2.2 ht0⟩
        · have hlt := terminateTargets_lt s.jobs inp k hin
          obtain ⟨j1, hj1, _⟩ := step_grows s.jobs inp k s.jobs[k]
            (List.getElem?_eq_getElem hlt)
          exact Or.inl ⟨j1, hj1, (step_flag s.jobs inp k j1 hj1).mpr (Or.inr hin)⟩
        · exact Or.inr hc
    · rw [if_neg hr] at h2
      have hf : s.running = false := by simpa using hr
      simp [hf, h2]

theorem session_kill_eq_reap (inputs : List Input) :
    signalled .SIGKILL (session Session.init inputs).trace =
      reaps (session Session.init inputs).trace :=
  session_invariant (fun s => signalled .SIGKILL s.trace = reaps s.trace)
    (fun s inp _ hs => by
      show signalled .SIGKILL (s.trace ++ (step s.jobs inp).events) =
        reaps (s.trace ++ (step s.jobs inp).events)
      rw [signalled_append, reaps_append, hs, step_kill_eq_reap])
    inputs Session.init (by simp [Session.init, signalled, reaps])

theorem session_reaps_perm (inputs : List Input) :
    List.Perm (reaps (session Session.init inputs).trace)
      (((session Session.init inputs).jobs.filter (fun j => j.terminated)).map Job.hproc) :=
  session_invariant
    (fun s => List.Perm (reaps s.trace) ((s.jobs.filter (fun j => j.terminated)).map Job.hproc))
    (fun s inp _ hs => by
      show List.Perm (reaps (s.trace ++ (step s.jobs inp).events))
        (((step s.jobs inp).jobs.filter (fun j => j.terminated)).map Job.hproc)
      rw [reaps_append]
      exact (List.Perm.append_right _ hs).trans (step_reaps_perm s.jobs inp))
    inputs Session.init (by simp [Session.init, reaps])

theorem filterMap_range_getElem? (l : List Job) :
    (List.range l.length).filterMap (fun k => l[k]?) = l := by
  induction l with
  | nil => rfl
  | cons x l ih =>
    rw [List.length_cons, List.range_succ_eq_map, List.filterMap_cons]
    simp only [List.getElem?_cons_zero, List.filterMap_map]
    have hf : ((fun k => (x :: l)[k]?) ∘ Nat.succ) = (fun k => l[k]?) := by
      funext k
      simp
    rw [hf, ih]

theorem step_reaps_targets (jobs : List Job) (inp : Input) :
    reaps (step jobs inp).events =
      (((terminateTargets jobs inp).filterMap (fun k => jobs[k]?)).filter
        (fun j => !j.terminated)).map Job.hproc := by
  rcases step_cases jobs inp with hc | ⟨args, hcmd, _, _, _, he, _⟩ | ⟨a, hcmd, _, he, _⟩ |
    ⟨args, hcmd, _, he, _⟩
  · rw [hc.2.1, hc.2.2.2.2]
    rfl
  · have htt : terminateTargets jobs inp = [] := by simp [terminateTargets, hcmd]
    rw [he, htt]
    rfl
  · rw [he]
    rcases terminateJob_cases jobs a inp.wait_status with ⟨pos, job, hg, hjob, ht⟩ | ⟨m, hg, ht⟩
    · have htt : terminateTargets jobs inp = [pos] := by simp [terminateTargets, hcmd, hg]
      rw [htt, ht]
      simp only [List.filterMap_cons, hjob, List.filterMap_nil]
      rw [terminate_events]
      cases hterm : job.terminated <;> simp [reaps, List.filter_cons, hterm]
    · have htt : terminateTargets jobs inp = [] := by simp [terminateTargets, hcmd, hg]
      rw [htt, ht]
      rfl
  · have htt : terminateTargets jobs inp = List.range jobs.length := by
      simp [terminateTargets, hcmd]
    rw [he, htt, filterMap_range_getElem?, terminateAll_events_live, reaps_live]

/-- C9: in every session from the start of `main`, whatever the commands, the pids reaped
are, as a multiset, the head processes of the jobs whose `terminated` flag is set: one
`waitpid` for each such job and none for any other; the SIGKILLs sent are the same pids in
the same order; the flag of a job is set exactly when `terminate` has been called on it
at least once, by the `terminate` command or by `exit`; and in one iteration of the command
loop, from any table, the reaps are one for each job on which `terminate` is called while
its flag is not yet set, and no other. -/
theorem one_reap_per_job (inputs : List Input) (jobs : List Job) (inp : Input) :
    List.Perm (reaps (session Session.init inputs).trace)
      (((session Session.init inputs).jobs.filter (fun j => j.terminated)).map Job.hproc) ∧
    signalled .SIGKILL (session Session.init inputs).trace =
      reaps (session Session.init inputs).trace ∧
    (∀ (k : Nat) (job : Job), (session Session.init inputs).jobs[k]? = some job →
      (job.terminated = true ↔ terminateCalled Session.init inputs k = true)) ∧
    reaps (step jobs inp).events =
      (((terminateTargets jobs inp).filterMap (fun k => jobs[k]?)).filter
        (fun j => !j.terminated)).map Job.hproc ∧
    signalled .SIGKILL (step jobs inp).events = reaps (step jobs inp).events := by
  refine ⟨session_reaps_perm inputs, session_kill_eq_reap inputs, ?_,
    step_reaps_targets jobs inp, step_kill_eq_reap jobs inp⟩
  intro k job hk
  rw [session_flag inputs Session.init k job hk]
  simp [Session.init]

/-- C9 on the sample session: job 0 is terminated twice by command and once more by `exit`,
job 1 by `exit` only; each is killed and reaped exactly once. -/
theorem one_reap_per_job_witness :
    (session Session.init sampleSession).trace =
      [.fork 101, .fork 102, .kill 101 .SIGKILL, .out (.terminated 101), .waitpid 101,
        .out (.listEntry 1 102 "xclock "), .kill 102 .SIGKILL, .out (.terminated 102),
        .waitpid 102] ∧
    reaps (session Session.init sampleSession).trace = [101, 102] ∧
    terminateCalled Session.init sampleSession 0 = true ∧
    List.Perm (reaps (session Session.init sampleSession).trace)
      (((session Session.init sampleSession).jobs.filter (fun j => j.terminated)).map
        Job.hproc) :=
  ⟨by decide, by decide, by decide,
   (one_reap_per_job sampleSession [] ⟨[], 0, fun _ => 0⟩).1⟩

/-! ### Handles as strings -/

theorem get_job_leadingInt (jobs : List Job) (a : String) (neg : Bool) (ds rest : List Char)
    (hl : LeadingInt a.data neg ds rest) (hlen : jobs.length ≤ 2147483647) :
    (0 ≤ intValue neg ds → intValue neg ds < jobs.length →
      get_job jobs a = (some (intValue neg ds).toNat, [])) ∧
    (intValue neg ds < 0 ∨ (jobs.length : Int) ≤ intValue neg ds →
      (get_job jobs a).1 = none ∧ ∃ n, (get_job jobs a).2 = [.out (.jobDoesNotExist n)]) := by
  have hs : stoi a =
      if intValue neg ds < -2147483648 ∨ 2147483647 < intValue neg ds then
        .error .out_of_range
      else .ok (intValue neg ds) := stoiChars_leadingInt a.data neg ds rest hl
  unfold get_job
  rw [hs]
  by_cases hr : intValue neg ds < -2147483648 ∨ 2147483647 < intValue neg ds
  · rw [if_pos hr]
    refine ⟨fun h0 h1 => by omega, fun _ => ⟨rfl, _, rfl⟩⟩
  · rw [if_neg hr]
    simp only
    by_cases hin : (intValue neg ds % 18446744073709551616).toNat < jobs.length
    · rw [if_pos hin]
      have h0 : 0 ≤ intValue neg ds := by omega
      have hmod : (intValue neg ds % 18446744073709551616).toNat = (intValue neg ds).toNat := by
        omega
      refine ⟨fun _ _ => by rw [hmod], fun h => by omega⟩
    · rw [if_neg hin]
      refine ⟨fun h0 h1 => by omega, fun _ => ⟨rfl, _, rfl⟩⟩

theorem get_job_not_numeric (jobs : List Job) (a : String) (h : ¬ Numeric a) :
    get_job jobs a = (none, [.out (.invalidJobNumber a)]) := by
  unfold get_job
  rw [(stoi_invalid_iff a).mpr h]

theorem get_job_invalid_iff (jobs : List Job) (a : String) :
    (∃ m, (get_job jobs a).2 = [.out (.invalidJobNumber m)]) ↔ ¬ Numeric a := by
  constructor
  · rintro ⟨m, hm⟩ ⟨neg, ds, rest, hl⟩
    have hs : stoi a =
        if intValue neg ds < -2147483648 ∨ 2147483647 < intValue neg ds then
          .error .out_of_range
        else .ok (intValue neg ds) := stoiChars_leadingInt a.data neg ds rest hl
    unfold get_job at hm
    rw [hs] at hm
    by_cases hr : intValue neg ds < -2147483648 ∨ 2147483647 < intValue neg ds
    · rw [if_pos hr] at hm
      simp at hm
    · rw [if_neg hr] at hm
      simp only at hm
      split_ifs at hm
      simp at hm
  · intro h
    exact ⟨a, by rw [get_job_not_numeric jobs a h]⟩

theorem step_no_job (jobs : List Job) (a : String) (fk : Int) (ws : Int → Int)
    (h : (get_job jobs a).1 = none) :
    step jobs ⟨["suspend", a], fk, ws⟩ = ⟨jobs, (get_job jobs a).2, true⟩ ∧
    step jobs ⟨["resume", a], fk, ws⟩ = ⟨jobs, (get_job jobs a).2, true⟩ ∧
    step jobs ⟨["terminate", a], fk, ws⟩ = ⟨jobs, (get_job jobs a).2, true⟩ ∧
    (∀ sig, signalled sig (get_job jobs a).2 = []) ∧ reaps (get_job jobs a).2 = [] := by
  rcases get_job_cases jobs a with ⟨pos, _, hg⟩ | ⟨m, hg⟩
  · rw [hg] at h
    simp at h
  · rw [hg]
    refine ⟨?_, ?_, ?_, ?_, ?_⟩
    · simp [step, signalJob, hg]
    · simp [step, signalJob, hg]
    · simp [step, terminateJob, hg]
    · intro sig
      simp [signalled]
    · simp [reaps]

/-- C12: for a table of at most `INT_MAX` entries (the program keeps it at 32 or fewer) and
any handle argument: when the argument is numeric (starts with a decimal integer) and the
value is in `[0, len)`, `get_job` returns the job at that position and prints nothing; when
it is numeric and the value is negative or at least `len`, `get_job` returns no job and
prints the `job ... does not exist` line; when it is not numeric, `get_job` returns no job
and prints the `invalid job number` line, a different line; and whenever `get_job` returns
no job, `suspend`, `resume` and `terminate` leave the table as it is, send no signal and
reap nothing, their only event being the line of `get_job`. -/
theorem handle_validation (jobs : List Job) (a : String) (fk : Int) (ws : Int → Int)
    (hlen : jobs.length ≤ 2147483647) :
    (∀ neg ds rest, LeadingInt a.data neg ds rest →
      0 ≤ intValue neg ds → intValue neg ds < jobs.length →
      get_job jobs a = (some (intValue neg ds).toNat, [])) ∧
    (∀ neg ds rest, LeadingInt a.data neg ds rest →
      (intValue neg ds < 0 ∨ (jobs.length : Int) ≤ intValue neg ds) →
      (get_job jobs a).1 = none ∧ ∃ n, (get_job jobs a).2 = [.out (.jobDoesNotExist n)]) ∧
    (¬ Numeric a → get_job jobs a = (none, [.out (.invalidJobNumber a)])) ∧
    (∀ (m : String) (n : Option Int), Msg.invalidJobNumber m ≠ Msg.jobDoesNotExist n) ∧
    ((get_job jobs a).1 = none →
      step jobs ⟨["suspend", a], fk, ws⟩ = ⟨jobs, (get_job jobs a).2, true⟩ ∧
      step jobs ⟨["resume", a], fk, ws⟩ = ⟨jobs, (get_job jobs a).2, true⟩ ∧
      step jobs ⟨["terminate", a], fk, ws⟩ = ⟨jobs, (get_job jobs a).2, true⟩ ∧
      (∀ sig, signalled sig (get_job jobs a).2 = []) ∧ reaps (get_job jobs a).2 = []) := by
  refine ⟨?_, ?_, get_job_not_numeric jobs a, ?_, step_no_job jobs a fk ws⟩
  · intro neg ds rest hl h0 h1
    exact (get_job_leadingInt jobs a neg ds rest hl hlen).1 h0 h1
  · intro neg ds rest hl h
    exact (get_job_leadingInt jobs a neg ds rest hl hlen).2 h
  · intro m n h
    cases h

/-- C12 on the sample table of two jobs: `1` is found, `7` and `-1` do not exist, `abc` is
not a number, and `terminate 7` changes nothing. -/
theorem handle_validation_witness :
    sampleTable.length ≤ 2147483647 ∧
    get_job sampleTable "1" = (some 1, []) ∧
    get_job sampleTable "7" = (none, [.out (.jobDoesNotExist (some 7))]) ∧
    get_job sampleTable "-1" = (none, [.out (.jobDoesNotExist (some (-1)))]) ∧
    get_job sampleTable "abc" = (none, [.out (.invalidJobNumber "abc")]) ∧
    step sampleTable ⟨["terminate", "7"], 0, fun _ => 0⟩ =
      ⟨sampleTable, (get_job sampleTable "7").2, true⟩ :=
  ⟨by decide, by decide, by decide, by decide, by decide,
   ((handle_validation sampleTable "7" 0 (fun _ => 0) (by decide)).2.2.2.2 (by decide)).2.2.1⟩

/-- C19: for a table of at most `INT_MAX` entries, the result of `get_job` on an argument
that starts with a decimal integer (optional sign, digits `ds`, then `rest`) is fixed by the
value of that integer: position `v` when `0 ≤ v < len`, no job and the `does not exist`
line otherwise; two arguments with the same sign and digits resolve alike whatever follows
the digits; and the `invalid job number` line is printed exactly for the arguments that do
not start with a decimal integer. -/
theorem get_job_reads_leading_integer (jobs : List Job) (a b : String) (neg : Bool)
    (ds rest rest2 : List Char) (hlen : jobs.length ≤ 2147483647)
    (ha : LeadingInt a.data neg ds rest) (hb : LeadingInt b.data neg ds rest2) :
    (0 ≤ intValue neg ds → intValue neg ds < jobs.length →
      get_job jobs a = (some (intValue neg ds).toNat, [])) ∧
    (intValue neg ds < 0 ∨ (jobs.length : Int) ≤ intValue neg ds →
      (get_job jobs a).1 = none ∧ ∃ n, (get_job jobs a).2 = [.out (.jobDoesNotExist n)]) ∧
    get_job jobs a = get_job jobs b ∧
    (∀ c : String, (∃ m, (get_job jobs c).2 = [.out (.invalidJobNumber m)]) ↔ ¬ Numeric c) := by
  refine ⟨(get_job_leadingInt jobs a neg ds rest ha hlen).1,
    (get_job_leadingInt jobs a neg ds rest ha hlen).2, ?_, get_job_invalid_iff jobs⟩
  have hsa : stoi a = stoi b := by
    unfold stoi
    rw [stoiChars_leadingInt a.data neg ds rest ha, stoiChars_leadingInt b.data neg ds rest2 hb]
  unfold get_job
  rw [hsa]
  cases hs : stoi b with
  | ok v => rfl
  | error e =>
    cases e with
    | out_of_range => rfl
    | invalid_argument =>
      exfalso
      exact (stoi_invalid_iff b).mp hs ⟨neg, ds, rest2, hb⟩

/-- C19 on the sample table: `1abc` resolves to job 1 like `1`, `+1x` too, and `abc1` is an
invalid job number. -/
theorem get_job_reads_leading_integer_witness :
    sampleTable.length ≤ 2147483647 ∧
    LeadingInt "1abc".data false ['1'] ['a', 'b', 'c'] ∧
    LeadingInt "1".data false ['1'] [] ∧
    get_job sampleTable "1abc" = (some 1, []) ∧
    get_job sampleTable "+1x" = (some 1, []) ∧
    get_job sampleTable "abc1" = (none, [.out (.invalidJobNumber "abc1")]) ∧
    get_job sampleTable "1abc" = get_job sampleTable "1" :=
  ⟨by decide,
   ⟨[], [], rfl, by simp, Or.inl ⟨rfl, rfl⟩, by decide, by decide, by decide⟩,
   ⟨[], [], rfl, by simp, Or.inl ⟨rfl, rfl⟩, by decide, by decide, by simp⟩,
   by decide, by decide, by decide,
   (get_job_reads_leading_integer sampleTable "1abc" "1" false ['1'] ['a', 'b', 'c'] []
     (by decide)
     ⟨[], [], rfl, by simp, Or.inl ⟨rfl, rfl⟩, by decide, by decide, by decide⟩
     ⟨[], [], rfl, by simp, Or.inl ⟨rfl, rfl⟩, by decide, by decide, by simp⟩).2.2.1⟩

/-! ### `suspend` and `resume` -/

/-- C18: for a table of at most `INT_MAX` entries and a handle argument whose leading integer
is in range, `suspend` sends one SIGSTOP and `resume` one SIGCONT to the head process of the
job at that position, with no other signal and no reap, whatever the `terminated` flag of
that job is, and both leave the whole table as it is. -/
theorem suspend_resume_ignore_flag (jobs : List Job) (a : String) (neg : Bool)
    (ds rest : List Char) (job : Job) (fk : Int) (ws : Int → Int)
    (hlen : jobs.length ≤ 2147483647) (hl : LeadingInt a.data neg ds rest)
    (h0 : 0 ≤ intValue neg ds) (hjob : jobs[(intValue neg ds).toNat]? = some job) :
    step jobs ⟨["suspend", a], fk, ws⟩ =
      ⟨jobs, [.kill job.hproc .SIGSTOP, .out (.suspended job.hproc)], true⟩ ∧
    step jobs ⟨["resume", a], fk, ws⟩ =
      ⟨jobs, [.kill job.hproc .SIGCONT, .out (.resumed job.hproc)], true⟩ ∧
    signalled .SIGSTOP (step jobs ⟨["suspend", a], fk, ws⟩).events = [job.hproc] ∧
    signalled .SIGCONT (step jobs ⟨["suspend", a], fk, ws⟩).events = [] ∧
    signalled .SIGKILL (step jobs ⟨["suspend", a], fk, ws⟩).events = [] ∧
    reaps (step jobs ⟨["suspend", a], fk, ws⟩).events = [] ∧
    signalled .SIGCONT (step jobs ⟨["resume", a], fk, ws⟩).events = [job.hproc] ∧
    signalled .SIGSTOP (step jobs ⟨["resume", a], fk, ws⟩).events = [] ∧
    signalled .SIGKILL (step jobs ⟨["resume", a], fk, ws⟩).events = [] ∧
    reaps (step jobs ⟨["resume", a], fk, ws⟩).events = [] := by
  have hlt : (intValue neg ds).toNat < jobs.length := (List.getElem?_eq_some.mp hjob).1
  have hg : get_job jobs a = (some (intValue neg ds).toNat, []) :=
    (get_job_leadingInt jobs a neg ds rest hl hlen).1 h0 (by omega)
  have hsus : step jobs ⟨["suspend", a], fk, ws⟩ =
      ⟨jobs, [.kill job.hproc .SIGSTOP, .out (.suspended job.hproc)], true⟩ := by
    simp [step, signalJob, hg, hjob]
  have hres : step jobs ⟨["resume", a], fk, ws⟩ =
      ⟨jobs, [.kill job.hproc .SIGCONT, .out (.resumed job.hproc)], true⟩ := by
    simp [step, signalJob, hg, hjob]
  rw [hsus, hres]
  refine ⟨rfl, rfl, ?_, ?_, ?_, ?_, ?_, ?_, ?_, ?_⟩ <;> simp [signalled, reaps]

/-- C18 on the sample table: job 0 is terminated, and `suspend 0` and `resume 0` still
signal its head process 101. -/
theorem suspend_resume_ignore_flag_witness :
    sampleTable[0]? = some ⟨0, 101, ["sleep", "100"], true⟩ ∧
    step sampleTable ⟨["suspend", "0"], 0, fun _ => 0⟩ =
      ⟨sampleTable, [.kill (⟨0, 101, ["sleep", "100"], true⟩ : Job).hproc .SIGSTOP,
        .out (.suspended (⟨0, 101, ["sleep", "100"], true⟩ : Job).hproc)], true⟩ ∧
    (step sampleTable ⟨["resume", "0"], 0, fun _ => 0⟩).events =
      [.kill 101 .SIGCONT, .out (.resumed 101)] :=
  ⟨by decide,
   (suspend_resume_ignore_flag sampleTable "0" false ['0'] [] ⟨0, 101, ["sleep", "100"], true⟩
     0 (fun _ => 0) (by decide)
     ⟨[], [], rfl, by simp, Or.inl ⟨rfl, rfl⟩, by decide, by decide, by simp⟩
     (by decide) (by decide)).1,
   by decide⟩

/-! ### `run` -/

/-- C13, the input on which the code falls short of it: `run echo 1 2 3 4 5` on the empty
table, `fork` succeeding. In the child, where `fork` returns 0, `run_cmd` prints the
too-many-arguments line and calls no program; in the parent, where `fork` returns the
child's pid 101, the job is registered all the same: the table is not left unchanged, the
command holds handle 0, and `list` shows it. -/
theorem run_five_arguments_admitted :
    (step [] ⟨["run", "echo", "1", "2", "3", "4", "5"], 0, fun _ => 0⟩).events =
      [.fork 0, .out .tooManyArguments] ∧
    (step [] ⟨["run", "echo", "1", "2", "3", "4", "5"], 101, fun _ => 0⟩).jobs =
      [⟨0, 101, ["echo", "1", "2", "3", "4", "5"], false⟩] ∧
    (step [] ⟨["run", "echo", "1", "2", "3", "4", "5"], 101, fun _ => 0⟩).jobs ≠ [] ∧
    (step [] ⟨["run", "echo", "1", "2", "3", "4", "5"], 101, fun _ => 0⟩).events =
      [.fork 101] ∧
    (session Session.init
      [⟨["run", "echo", "1", "2", "3", "4", "5"], 101, fun _ => 0⟩,
       ⟨["list"], 0, fun _ => 0⟩]).trace =
      [.fork 101, .out (.listEntry 0 101 "echo 1 2 3 4 5 ")] := by
  decide

/-- With 0 to 4 arguments `run_cmd` calls the program with exactly these arguments. -/
theorem runCmd_few (prog : String) (args : List String) (h : args.length ≤ 4) :
    runCmd (prog :: args) = [.execlp prog (prog :: args)] := by
  match args, h with
  | [], _ => rfl
  | [_], _ => rfl
  | [_, _], _ => rfl
  | [_, _, _], _ => rfl
  | [_, _, _, _], _ => rfl
  | _ :: _ :: _ :: _ :: _ :: _, h => simp at h

/-- With more than 4 arguments `run_cmd` prints the too-many-arguments line and calls no
program. -/
theorem runCmd_many (prog : String) (args : List String) (h : 4 < args.length) :
    runCmd (prog :: args) = [.out .tooManyArguments] := by
  match args, h with
  | [], h => simp at h
  | [_], h => simp at h
  | [_, _], h => simp at h
  | [_, _, _], h => simp at h
  | [_, _, _, _], h => simp at h
  | _ :: _ :: _ :: _ :: _ :: _, _ => rfl

/-- C15: below capacity, a `run` whose `fork` fails leaves the table as it is, its events
being the `fork` and the `fork error` line, and the loop goes on; a following `run` whose
`fork` succeeds appends its job with the unchanged table length as handle. -/
theorem fork_failure_appends_nothing (jobs : List Job) (args args2 : List String)
    (fk fk2 : Int) (ws ws2 : Int → Int)
    (hcap : jobs.length < MAX_JOBS) (hfk : fk < 0) (hfk2 : 0 < fk2) :
    step jobs ⟨"run" :: args, fk, ws⟩ = ⟨jobs, [.fork fk, .out .forkError], true⟩ ∧
    step (step jobs ⟨"run" :: args, fk, ws⟩).jobs ⟨"run" :: args2, fk2, ws2⟩ =
      ⟨jobs ++ [⟨(jobs.length : Int), fk2, args2, false⟩], [.fork fk2], true⟩ ∧
    (session ⟨jobs, [], true⟩ [⟨"run" :: args, fk, ws⟩, ⟨"run" :: args2, fk2, ws2⟩]).jobs =
      jobs ++ [⟨(jobs.length : Int), fk2, args2, false⟩] := by
  have h1 : step jobs ⟨"run" :: args, fk, ws⟩ = ⟨jobs, [.fork fk, .out .forkError], true⟩ := by
    simp [step, runJob, hcap, hfk]
  have hneg : ¬ fk2 < 0 := by omega
  have h2 : step jobs ⟨"run" :: args2, fk2, ws2⟩ =
      ⟨jobs ++ [⟨(jobs.length : Int), fk2, args2, false⟩], [.fork fk2], true⟩ := by
    simp [step, runJob, hcap, hfk2, hneg]
  refine ⟨h1, by rw [h1]; exact h2, ?_⟩
  simp only [session, h1, h2, if_true]

/-- C15 on the sample table: a failed `fork` changes nothing and the next `run` gets
handle 2. -/
theorem fork_failure_appends_nothing_witness :
    sampleTable.length < MAX_JOBS ∧
    step sampleTable ⟨"run" :: ["ls"], -1, fun _ => 0⟩ =
      ⟨sampleTable, [.fork (-1), .out .forkError], true⟩ ∧
    (step (step sampleTable ⟨["run", "ls"], -1, fun _ => 0⟩).jobs
      ⟨["run", "ls"], 103, fun _ => 0⟩).jobs = sampleTable ++ [⟨2, 103, ["ls"], false⟩] :=
  ⟨by decide,
   (fork_failure_appends_nothing sampleTable ["ls"] ["ls"] (-1) 103 (fun _ => 0) (fun _ => 0)
     (by decide) (by decide) (by decide)).1,
   by decide⟩

/-! ### Commands that leave the table alone -/

/-- C16: from any table, a line whose first word is none of `list`, `run`, `suspend`,
`resume`, `terminate`, `exit`, `quit` prints the invalid-command line and has no other
effect; `quit` ends the loop with no event, so no signal and no reap, and leaves every job
as it is; `exit` ends the loop after running `terminate` on every job, so that all are
terminated. -/
theorem commands_without_table_effect (jobs : List Job) (c0 : String) (args : List String)
    (fk : Int) (ws : Int → Int) (tr : List Event) (rest : List Input) :
    (c0 ≠ "list" → c0 ≠ "run" → c0 ≠ "suspend" → c0 ≠ "resume" → c0 ≠ "terminate" →
      c0 ≠ "exit" → c0 ≠ "quit" →
      step jobs ⟨c0 :: args, fk, ws⟩ = ⟨jobs, [.out (.invalidCommand c0)], true⟩) ∧
    step jobs ⟨"quit" :: args, fk, ws⟩ = ⟨jobs, [], false⟩ ∧
    session ⟨jobs, tr, true⟩ (⟨"quit" :: args, fk, ws⟩ :: rest) = ⟨jobs, tr, false⟩ ∧
    step jobs ⟨"exit" :: args, fk, ws⟩ =
      ⟨(terminateAll ws jobs).1, (terminateAll ws jobs).2, false⟩ ∧
    (∀ j ∈ (step jobs ⟨"exit" :: args, fk, ws⟩).jobs, j.terminated = true) := by
  have hquit : step jobs ⟨"quit" :: args, fk, ws⟩ = ⟨jobs, [], false⟩ := by
    simp [step]
  have hexit : step jobs ⟨"exit" :: args, fk, ws⟩ =
      ⟨(terminateAll ws jobs).1, (terminateAll ws jobs).2, false⟩ := by
    simp [step]
  refine ⟨?_, hquit, ?_, hexit, ?_⟩
  · intro h1 h2 h3 h4 h5 h6 h7
    simp [step, h1, h2, h3, h4, h5, h6, h7]
  · rw [session_cons, if_pos rfl, hquit]
    simp only [List.append_nil]
    exact session_stopped _ rest rfl
  · intro j hj
    rw [hexit] at hj
    simp only at hj
    rw [terminateAll_jobs] at hj
    obtain ⟨j0, _, rfl⟩ := List.mem_map.mp hj
    rw [terminate_fst]

/-- C16 on the sample table: `frobnicate` is an invalid command and changes nothing, `quit`
leaves job 1 not terminated, `exit` terminates it. -/
theorem commands_without_table_effect_witness :
    step sampleTable ⟨"frobnicate" :: [], 0, fun _ => 0⟩ =
      ⟨sampleTable, [.out (.invalidCommand "frobnicate")], true⟩ ∧
    (step sampleTable ⟨["quit"], 0, fun _ => 0⟩).jobs = sampleTable ∧
    (step sampleTable ⟨["quit"], 0, fun _ => 0⟩).events = [] ∧
    (step sampleTable ⟨["exit"], 0, fun _ => 0⟩).events =
      [.kill 102 .SIGKILL, .out (.terminated 102), .waitpid 102] :=
  ⟨(commands_without_table_effect sampleTable "frobnicate" [] 0 (fun _ => 0) [] []).1
     (by decide) (by decide) (by decide) (by decide) (by decide) (by decide) (by decide),
   by decide, by decide, by decide⟩

end A1jobs
